import Mathlib

/-!
Shallow embedding of the pdf2text-converter extraction-and-cleanup pipeline:

* PDFChunker.create_chunks        (backend/app/utils/chunking.py)
* TextNormalizer                  (backend/app/utils/text_normalizer.py)
* TextFilter                      (backend/app/utils/text_filter.py)
* PDFProcessor orchestration      (backend/app/services/pdf_processor.py)

Python floats are modelled by exact rationals (the properties proved below do
not depend on rounding: they hold for every pages-per-chunk value >= 1, and the
threshold comparisons are exact for every realizable list length).  Python
strings are modelled as lists of Unicode scalar values (List Char), which
matches Python's len and code-point indexing.
-/

namespace Pdf2Text

/-! ### Chunker: backend/app/utils/chunking.py -/

/-- One entry of the list returned by PDFChunker.create_chunks. -/
structure Chunk where
  start_page : Nat
  end_page : Nat
  page_count : Nat
  estimated_size_mb : ℚ
deriving Repr, DecidableEq

/-- The while-loop of create_chunks (chunking.py lines 45-55).  The loop runs
while current_page < total_pages and advances current_page to end_page + 1
each iteration; since pages_per_chunk >= 1 at every call site, each iteration
advances by at least one page, so a fuel of total_pages iterations is always
enough (the fuel is a termination device only). -/
def createChunksLoop (pagesPerChunk totalPages : Nat) (avgPageSize : ℚ) :
    Nat → Nat → List Chunk
  | 0, _ => []
  | fuel + 1, currentPage =>
    if currentPage < totalPages then
      let endPage := min (currentPage + pagesPerChunk - 1) (totalPages - 1)
      { start_page := currentPage,
        end_page := endPage,
        page_count := endPage - currentPage + 1,
        estimated_size_mb :=
          ((endPage - currentPage + 1 : Nat) : ℚ) * avgPageSize / (1024 * 1024) } ::
        createChunksLoop pagesPerChunk totalPages avgPageSize fuel (endPage + 1)
    else []

/-- PDFChunker.create_chunks (chunking.py lines 24-60).
avg_page_size = file_size / total_pages if total_pages > 0 else file_size;
pages_per_chunk = max(1, int(chunk_size_bytes / avg_page_size)).
Both divisions are Python float divisions, modelled exactly over ℚ; int()
truncation of a nonnegative value is the floor.  When avg_page_size is 0.0
(which happens exactly when file_size is 0, whatever the page count), the
second division raises ZeroDivisionError, modelled as Except.error. -/
def create_chunks (chunkSizeBytes fileSize totalPages : Nat) :
    Except Unit (List Chunk) :=
  let avgPageSize : ℚ :=
    if totalPages > 0 then (fileSize : ℚ) / (totalPages : ℚ) else (fileSize : ℚ)
  if avgPageSize = 0 then Except.error ()
  else
    let pagesPerChunk := max 1 (Int.toNat ⌊(chunkSizeBytes : ℚ) / avgPageSize⌋)
    Except.ok (createChunksLoop pagesPerChunk totalPages avgPageSize totalPages 0)

/-! ### Text model and Python string helpers -/

/-- A Python str, as its sequence of Unicode scalar values. -/
abbrev Text := List Char

/-- The whitespace set of Python str (str.isspace / str.strip and, for the
character repertoire of this development, the re module's backslash-s class
on str patterns). -/
def isPySpace (c : Char) : Bool :=
  c = ' ' || c = '\t' || c = '\n' || c = '\r' || c = '\x0b' || c = '\x0c' ||
  c = '\x1c' || c = '\x1d' || c = '\x1e' || c = '\x1f' || c = '\x85' || c = '\xa0' ||
  c = ' ' || c = ' ' || c = ' ' || c = ' ' || c = ' ' ||
  c = ' ' || c = ' ' || c = ' ' || c = ' ' || c = ' ' ||
  c = ' ' || c = ' ' || c = ' ' || c = ' ' || c = ' ' ||
  c = ' ' || c = '　'

/-- Python str.rstrip() with no argument. -/
def pyRstrip (l : Text) : Text :=
  (l.reverse.dropWhile isPySpace).reverse

/-- Python str.strip() with no argument. -/
def pyStrip (l : Text) : Text :=
  pyRstrip (l.dropWhile isPySpace)

/-- Python str.split('\n'): splitting on an explicit separator never drops
empty pieces, and the empty string splits to one empty piece. -/
def splitOnNL : Text → List Text
  | [] => [[]]
  | c :: rest =>
    if c = '\n' then [] :: splitOnNL rest
    else
      match splitOnNL rest with
      | [] => [[c]]
      | h :: t => (c :: h) :: t

/-! ### Normalizer: backend/app/utils/text_normalizer.py -/

/-- TextNormalizer.LIGATURES.  The Python dict literal lists each key twice
(the escape such as backslash-ufb01 and the literal ligature glyph are the
same code point), so the dict collapses to these seven entries; the duplicate
assignments carry identical replacement values. -/
def LIGATURES : List (Char × Text) :=
  [('ﬀ', ['f', 'f']), ('ﬁ', ['f', 'i']), ('ﬂ', ['f', 'l']),
   ('ﬃ', ['f', 'f', 'i']), ('ﬄ', ['f', 'f', 'l']),
   ('ﬅ', ['f', 't']), ('ﬆ', ['s', 't'])]

/-- Python str.replace with a single-character needle. -/
def replaceChar (l : Text) (c : Char) (r : Text) : Text :=
  l.flatMap fun x => if x = c then r else [x]

/-- TextNormalizer.normalize_ligatures: sequential text.replace over the
LIGATURES table. -/
def normalize_ligatures (l : Text) : Text :=
  LIGATURES.foldl (fun acc p => replaceChar acc p.1 p.2) l

/-- Decomposition mapping used by unicodedata.normalize('NFKC', ...),
restricted to the character repertoire of this development: the seven PDF
ligature code points carry compatibility decompositions to ASCII letter
sequences, and U+00E9 carries the canonical decomposition e + U+0301.  Every
other character appearing in this development is NFKC-inert and maps to
itself. -/
def nfkcDecomposeChar (c : Char) : Text :=
  if c = 'ﬀ' then ['f', 'f']
  else if c = 'ﬁ' then ['f', 'i']
  else if c = 'ﬂ' then ['f', 'l']
  else if c = 'ﬃ' then ['f', 'f', 'i']
  else if c = 'ﬄ' then ['f', 'f', 'l']
  else if c = 'ﬅ' then ['f', 't']
  else if c = 'ﬆ' then ['s', 't']
  else if c = 'é' then ['e', '́']
  else [c]

/-- Unicode canonical combining class, on the same repertoire: U+0301
COMBINING ACUTE ACCENT has class 230, all other characters used here have
class 0. -/
def ccc (c : Char) : Nat :=
  if c = '́' then 230 else 0

/-- Insert one character in front of an already canonically-ordered tail:
a combining mark moves right past marks of strictly smaller positive class
and stops at any starter or any mark of class at least its own (the stable
canonical ordering of UAX #15). -/
def reorderInsert (c : Char) : Text → Text
  | [] => [c]
  | d :: ds =>
    if 0 < ccc c && 0 < ccc d && ccc d < ccc c then d :: reorderInsert c ds
    else c :: d :: ds

/-- Canonical reordering pass of the normalization algorithm. -/
def canonicalReorder : Text → Text
  | [] => []
  | c :: rest => reorderInsert c (canonicalReorder rest)

/-- Primary composite table, restricted to the repertoire: the only
canonically composable pair here is e + U+0301 = U+00E9. -/
def composePair (a b : Char) : Option Char :=
  if a = 'e' && b = '́' then some 'é' else none

/-- Canonical composition pass.  On this repertoire only class-0-with-class-230
pairs compose and only one mark class exists, so a starter composes with its
mark exactly when they are adjacent (a mark of the same class in between
blocks, as in UAX #15). -/
def composeRunF : Nat → Text → Text
  | _, [] => []
  | _, [c] => [c]
  | 0, l => l
  | fuel + 1, a :: b :: rest =>
    match composePair a b with
    | some c => composeRunF fuel (c :: rest)
    | none => a :: composeRunF fuel (b :: rest)

/-- Each step of the composition pass shortens the text or drops its head, so
a fuel of the text's length always suffices; the fuel is a termination device
only (see composeRunF_fuel). -/
def composeRun (l : Text) : Text :=
  composeRunF l.length l

/-- TextNormalizer.normalize_unicode: unicodedata.normalize('NFKC', text),
as decompose, canonically reorder, canonically compose (restricted tables,
see nfkcDecomposeChar). -/
def normalize_unicode (l : Text) : Text :=
  composeRun (canonicalReorder (l.flatMap nfkcDecomposeChar))

/-- The re.sub(r'-\s*\n\s*', '', text) pass of remove_soft_hyphens.  At a
hyphen, the greedy pattern matches exactly when the maximal whitespace run
following it contains a newline, and the match then covers the hyphen and the
whole run; scanning resumes after the match. -/
def removeSoftBreaksF : Nat → Text → Text
  | _, [] => []
  | 0, l => l
  | fuel + 1, c :: rest =>
    if c = '-' && (rest.takeWhile isPySpace).contains '\n' then
      removeSoftBreaksF fuel (rest.dropWhile isPySpace)
    else c :: removeSoftBreaksF fuel rest

/-- Each step consumes at least the head character, so a fuel of the text's
length always suffices; the fuel is a termination device only (see
removeSoftBreaksF_fuel). -/
def removeSoftBreaks (l : Text) : Text :=
  removeSoftBreaksF l.length l

/-- TextNormalizer.remove_soft_hyphens: the hyphen-linebreak regex pass, then
text.replace of the Unicode soft hyphen U+00AD with the empty string. -/
def remove_soft_hyphens (l : Text) : Text :=
  (removeSoftBreaks l).filter fun c => c ≠ '­'

/-- The re.sub(r' +', ' ', text) pass of clean_whitespace: every maximal run
of spaces becomes a single space.  The Boolean state records whether the
previous character was a space already emitted for the current run. -/
def collapseSpacesAux : Bool → Text → Text
  | _, [] => []
  | inRun, c :: rest =>
    if c = ' ' then
      if inRun then collapseSpacesAux true rest
      else ' ' :: collapseSpacesAux true rest
    else c :: collapseSpacesAux false rest

def collapseSpaces (l : Text) : Text :=
  collapseSpacesAux false l

/-- Rewriting of one maximal whitespace run under
re.sub(r'\n\s*\n\s*\n+', '\n\n', text): a match lies inside a single maximal
whitespace run (backslash-s cannot cross other characters) and exists exactly
when the run holds at least three newlines; greedy matching then spans from
the run's first to its last newline, so the run rewrites to its
before-first-newline prefix, two newlines, and its after-last-newline
suffix.  Runs with at most two newlines are untouched. -/
def rewriteNLRun (run : Text) : Text :=
  if 3 ≤ run.count '\n' then
    run.takeWhile (fun c => c ≠ '\n') ++
      '\n' :: '\n' :: (run.reverse.takeWhile (fun c => c ≠ '\n')).reverse
  else run

/-- The re.sub(r'\n\s*\n\s*\n+', '\n\n', text) pass, processing maximal
whitespace runs left to right. -/
def collapseNLF : Nat → Text → Text
  | _, [] => []
  | 0, l => l
  | fuel + 1, c :: rest =>
    if isPySpace c then
      rewriteNLRun (c :: rest.takeWhile isPySpace) ++
        collapseNLF fuel (rest.dropWhile isPySpace)
    else c :: collapseNLF fuel rest

/-- Each step consumes at least the head character, so a fuel of the text's
length always suffices; the fuel is a termination device only (see
collapseNLF_fuel). -/
def collapseNL (l : Text) : Text :=
  collapseNLF l.length l

/-- lines = [line.rstrip() for line in text.split('\n')]; '\n'.join(lines). -/
def rstripLines (l : Text) : Text :=
  List.intercalate ['\n'] ((splitOnNL l).map pyRstrip)

/-- TextNormalizer.clean_whitespace: collapse space runs, collapse whitespace
runs holding three or more newlines down to a paragraph break, right-strip
every line, strip the whole result. -/
def clean_whitespace (l : Text) : Text :=
  pyStrip (rstripLines (collapseNL (collapseSpaces l)))

/-- TextNormalizer.fix_common_ocr_errors: the substitution table exists in the
source but its application is commented out, so the function returns its
input unchanged. -/
def fix_common_ocr_errors (l : Text) : Text :=
  l

/-- TextNormalizer.normalize: each step independently toggled, applied in the
source order ligatures, unicode, soft hyphens, whitespace, ocr errors. -/
def normalize (text : Text)
    (ligatures unicode_norm whitespace soft_hyphens ocr_errors : Bool) : Text :=
  let t1 := if ligatures then normalize_ligatures text else text
  let t2 := if unicode_norm then normalize_unicode t1 else t1
  let t3 := if soft_hyphens then remove_soft_hyphens t2 else t2
  let t4 := if whitespace then clean_whitespace t3 else t3
  if ocr_errors then fix_common_ocr_errors t4 else t4

/-! ### TextFilter: backend/app/utils/text_filter.py -/

/-- TextFilter.detect_repetitive_lines (text_filter.py lines 21-52), as the
characteristic function of the returned set.  For each page the code forms
set(lines) of the raw lines and then increments the counter at the stripped
key, so the tally of a stripped key sums, over the pages, the number of
distinct raw lines of the page that strip to it.  The nonempty and
length-under-200 guard depends only on the stripped key.  The comparison
count >= max(min_repetition_threshold, total_pages * 0.05) is a float
comparison of an integer count; over the rationals it is
20 * count >= max(20 * threshold, total_pages), which agrees with the float
computation for every realizable page count. -/
def detect_repetitive_lines (minRepetitionThreshold : Nat) (pages : List Text)
    (line : Text) : Bool :=
  let tally := (pages.map fun page =>
    (splitOnNL page).eraseDups.countP fun raw => pyStrip raw == line).sum
  !line.isEmpty && line.length < 200 &&
    max (20 * minRepetitionThreshold) pages.length ≤ 20 * tally

/-- Four decimal digits at the head of the text (the anchored part of a
backslash-d-four regex tail). -/
def fourDigitsAt : Text → Bool
  | a :: b :: c :: d :: _ => a.isDigit && b.isDigit && c.isDigit && d.isDigit
  | _ => false

/-- Whether four consecutive decimal digits occur at or after the current
position without a newline strictly before them (the dot of an uncompiled
re pattern does not match a newline). -/
def searchFourDigits : Text → Bool
  | [] => false
  | c :: rest => fourDigitsAt (c :: rest) || (c ≠ '\n' && searchFourDigits rest)

/-- re.search(key + '.*' + four digits, l): some occurrence of key followed,
with no intervening newline, by four consecutive decimal digits. -/
def searchKeyThenYear (key : Text) : Text → Bool
  | [] => false
  | c :: rest =>
    (key.isPrefixOf (c :: rest) && searchFourDigits ((c :: rest).drop key.length)) ||
      searchKeyThenYear key rest

/-- Whether pat occurs as a contiguous substring (re.search of a literal
pattern succeeding somewhere in the line). -/
def containsSeq (pat : Text) : Text → Bool
  | [] => pat.isEmpty
  | c :: rest => pat.isPrefixOf (c :: rest) || containsSeq pat rest

/-- TextFilter.is_copyright_line (text_filter.py lines 54-80): the line is
lowered and stripped, then searched for the copyright patterns.  Python
str.lower agrees with ASCII lowering on the repertoire involved. -/
def is_copyright_line (line : Text) : Bool :=
  let lower := pyStrip (line.map Char.toLower)
  searchKeyThenYear ['©'] lower ||
  searchKeyThenYear "copyright".data lower ||
  containsSeq "all rights reserved".data lower ||
  containsSeq "tutti i diritti riservati".data lower ||
  containsSeq "tous droits réservés".data lower ||
  containsSeq "alle rechte vorbehalten".data lower ||
  containsSeq "todos los derechos reservados".data lower

/-- re.match(r'^word\s+\d+$', l, re.IGNORECASE), evaluated on the lowered
line: the word, one or more whitespace characters, one or more digits, end. -/
def matchWordNum (word : Text) (l : Text) : Bool :=
  word.isPrefixOf l &&
    (let r := l.drop word.length
     let ws := r.takeWhile isPySpace
     let d := r.dropWhile isPySpace
     !ws.isEmpty && !d.isEmpty && d.all Char.isDigit)

/-- re.match(r'^\d+\s*/\s*\d+$', l): digits, optional whitespace, slash,
optional whitespace, digits, end. -/
def matchNumSlashNum (l : Text) : Bool :=
  let d1 := l.takeWhile Char.isDigit
  let r1 := (l.dropWhile Char.isDigit).dropWhile isPySpace
  match r1 with
  | '/' :: r2 =>
    let d2 := r2.dropWhile isPySpace
    !d1.isEmpty && !d2.isEmpty && d2.all Char.isDigit
  | _ => false

/-- re.match(r'^-\s*\d+\s*-$', l): hyphen, optional whitespace, digits,
optional whitespace, hyphen, end. -/
def matchDashNumDash (l : Text) : Bool :=
  match l with
  | '-' :: r1 =>
    let r2 := r1.dropWhile isPySpace
    let ds := r2.takeWhile Char.isDigit
    let r3 := (r2.dropWhile Char.isDigit).dropWhile isPySpace
    !ds.isEmpty && r3 == ['-']
  | _ => false

/-- TextFilter.is_page_number (text_filter.py lines 82-110): bare digits, or
one of the anchored page-number patterns, matched case-insensitively. -/
def is_page_number (line : Text) : Bool :=
  let s := pyStrip line
  (!s.isEmpty && s.all Char.isDigit) ||
  (let low := s.map Char.toLower
   matchWordNum "page".data low || matchWordNum "pagina".data low ||
   matchNumSlashNum low || matchDashNumDash low)

/-- TextFilter.filter_page (text_filter.py lines 152-195): drop blank lines,
lines in the repetitive set (queried at the stripped line), copyright lines
(when enabled) and page-number lines; rejoin with single newlines; apply the
same re.sub(r'\n\s*\n\s*\n+', '\n\n', ...) as clean_whitespace; strip. -/
def filter_page (pageText : Text) (repetitiveLines : Text → Bool)
    (removeCopyright : Bool) : Text :=
  let kept := (splitOnNL pageText).filter fun line =>
    let s := pyStrip line
    !s.isEmpty && !repetitiveLines s &&
      !(removeCopyright && is_copyright_line line) && !is_page_number line
  pyStrip (collapseNL (List.intercalate ['\n'] kept))

/-- TextFilter.filter_document (text_filter.py lines 197-231) with the
default min_threshold=None (so the stored threshold is used unchanged, here
passed explicitly): detect the repetitive set when enabled, filter each page,
keep only pages whose filtered text is nonempty. -/
def filter_document (minThreshold : Nat) (pages : List Text)
    (removeRepetitive removeCopyright : Bool) : List Text :=
  let repetitiveLines : Text → Bool :=
    if removeRepetitive then detect_repetitive_lines minThreshold pages
    else fun _ => false
  ((pages.map fun page => filter_page page repetitiveLines removeCopyright).filter
    fun t => !t.isEmpty)

/-! ### Processor: backend/app/services/pdf_processor.py -/

/-- The opaque capability one PDF page offers the processor: the embedded
text layer returned by page.get_text(), and the outcome of the OCR call for
that page (error models pytesseract raising; rendering parameters are fixed
by the code and carry no information here). -/
structure PageCap where
  text : Text
  ocrResult : Except Unit Text
deriving Repr

/-- PDFProcessor._ocr_page (pdf_processor.py lines 280-298): returns the OCR
text, and on any exception logs the error and returns the empty string. -/
def ocr_page (p : PageCap) : Text :=
  match p.ocrResult with
  | Except.ok t => t
  | Except.error _ => []

/-- PDFProcessor._extract_page_text (pdf_processor.py lines 259-278): read
the embedded layer, replace it by the OCR result when OCR is enabled and the
stripped embedded text is shorter than 50 characters, then normalize with
ligatures, unicode, whitespace and soft hyphens on and OCR-error fixes off. -/
def extract_page_text (p : PageCap) (useOcr : Bool) : Text :=
  let text := p.text
  let text := if useOcr && (pyStrip text).length < 50 then ocr_page p else text
  normalize text true true true true false

/-- The page-marker prefix f"--- Page {n} ---\n". -/
def pageMarker (n : Nat) : Text :=
  "--- Page ".data ++ (toString n).data ++ " ---\n".data

/-- The marker loop shared by _extract_text_sync (startPage = 0) and
_extract_text_range_sync: pages whose text strips to empty are skipped, the
others are prefixed with the marker built from startPage + idx + 1 where idx
enumerates the (already filtered) page-text list. -/
def markedPages (pageTexts : List Text) (startPage : Nat) : List Text :=
  (pageTexts.enum.filter fun p => !(pyStrip p.2).isEmpty).map
    fun p => pageMarker (startPage + p.1 + 1) ++ p.2

/-- The dict returned by PDFProcessor._extract_text_sync. -/
structure ExtractResult where
  text : Text
  pages : Nat
  total_chars : Nat
  file_size_mb : ℚ
  chunked : Bool
deriving Repr, DecidableEq

/-- PDFProcessor._extract_text_sync (pdf_processor.py lines 167-212): extract
every page, filter the document when either filtering flag is set (with the
processor's threshold 3), add page markers, join with a blank line. -/
def extract_text_sync (pages : List PageCap) (useOcr : Bool)
    (removeRepetitive removeCopyright : Bool) (fileSize : Nat) : ExtractResult :=
  let pageTexts := pages.map fun p => extract_page_text p useOcr
  let pageTexts :=
    if removeRepetitive || removeCopyright then
      filter_document 3 pageTexts removeRepetitive removeCopyright
    else pageTexts
  let combined := List.intercalate "\n\n".data (markedPages pageTexts 0)
  { text := combined,
    pages := pages.length,
    total_chars := combined.length,
    file_size_mb := (fileSize : ℚ) / (1024 * 1024),
    chunked := false }

/-- The dict returned by PDFProcessor._extract_text_range_sync. -/
structure RangeResult where
  text : Text
  pages : Nat
  total_chars : Nat
deriving Repr, DecidableEq

/-- PDFProcessor._extract_text_range_sync (pdf_processor.py lines 214-257):
extract pages start_page to min(end_page + 1, page_count) exclusive, filter
as in whole-document mode, and number markers by start_page + idx + 1; the
pages field reports end_page - start_page + 1 regardless of how many pages
were extracted or survived. -/
def extract_text_range_sync (pages : List PageCap) (startPage endPage : Nat)
    (useOcr removeRepetitive removeCopyright : Bool) : RangeResult :=
  let rangePages := (pages.take (min (endPage + 1) pages.length)).drop startPage
  let pageTexts := rangePages.map fun p => extract_page_text p useOcr
  let pageTexts :=
    if removeRepetitive || removeCopyright then
      filter_document 3 pageTexts removeRepetitive removeCopyright
    else pageTexts
  let combined := List.intercalate "\n\n".data (markedPages pageTexts startPage)
  { text := combined,
    pages := endPage + 1 - startPage,
    total_chars := combined.length }

/-- The dict returned by PDFProcessor._process_chunked. -/
structure ChunkedResult where
  text : Text
  pages : Nat
  total_chars : Nat
  chunks_processed : Nat
  file_size_mb : ℚ
  chunked : Bool
deriving Repr, DecidableEq

/-- PDFProcessor._process_chunked (pdf_processor.py lines 96-141): create the
chunk list, process each page range, join the chunk texts with a blank line,
sum the per-chunk page counts. -/
def process_chunked (pages : List PageCap) (chunkSizeBytes fileSize : Nat)
    (useOcr removeRepetitive removeCopyright : Bool) :
    Except Unit ChunkedResult :=
  (create_chunks chunkSizeBytes fileSize pages.length).map fun chunks =>
    let results := chunks.map fun c =>
      extract_text_range_sync pages c.start_page c.end_page
        useOcr removeRepetitive removeCopyright
    let combined := List.intercalate "\n\n".data (results.map RangeResult.text)
    { text := combined,
      pages := (results.map RangeResult.pages).sum,
      total_chars := combined.length,
      chunks_processed := chunks.length,
      file_size_mb := (fileSize : ℚ) / (1024 * 1024),
      chunked := true }

/-! ### Proofs about the Chunker -/

theorem createChunksLoop_eq_nil (ppc total : Nat) (avg : ℚ) (fuel current : Nat)
    (h : total ≤ current) :
    createChunksLoop ppc total avg fuel current = [] := by
  cases fuel <;> simp [createChunksLoop, Nat.not_lt.mpr h]

/-- Invariant of the create_chunks while-loop: starting below total with
enough fuel and a positive pages-per-chunk, the produced list is a
contiguous, ordered partition of the pages from current to total - 1. -/
theorem createChunksLoop_spec (ppc total : Nat) (avg : ℚ) (hppc : 1 ≤ ppc) :
    ∀ fuel current, current < total → total - current ≤ fuel →
      createChunksLoop ppc total avg fuel current ≠ [] ∧
      (∀ c, (createChunksLoop ppc total avg fuel current).head? = some c →
        c.start_page = current) ∧
      (∀ c, (createChunksLoop ppc total avg fuel current).getLast? = some c →
        c.end_page = total - 1) ∧
      List.Chain' (fun a b => b.start_page = a.end_page + 1)
        (createChunksLoop ppc total avg fuel current) ∧
      (∀ c ∈ createChunksLoop ppc total avg fuel current,
        c.start_page ≤ c.end_page ∧ c.page_count = c.end_page + 1 - c.start_page) ∧
      ((createChunksLoop ppc total avg fuel current).map Chunk.page_count).sum
        = total - current := by
  intro fuel
  induction fuel with
  | zero => intro current hlt hfuel; omega
  | succ fuel ih =>
    intro current hlt hfuel
    have hcur : current ≤ min (current + ppc - 1) (total - 1) := by
      refine le_min (by omega) (by omega)
    have hend : min (current + ppc - 1) (total - 1) ≤ total - 1 :=
      min_le_right _ _
    set e := min (current + ppc - 1) (total - 1) with he
    simp only [createChunksLoop, if_pos hlt, ← he]
    by_cases hstep : e + 1 < total
    · obtain ⟨hne, hhead, hlast, hchain, hmem, hsum⟩ :=
        ih (e + 1) hstep (by omega)
      obtain ⟨r, rs, hr⟩ := List.exists_cons_of_ne_nil hne
      refine ⟨by simp, ?_, ?_, ?_, ?_, ?_⟩
      · intro c hc
        simp only [List.head?_cons, Option.some.injEq] at hc
        simp [← hc]
      · intro c hc
        rw [hr, List.getLast?_cons_cons] at hc
        exact hlast c (by rw [hr]; exact hc)
      · rw [List.chain'_cons']
        refine ⟨?_, hchain⟩
        intro b hb
        simpa using hhead b hb
      · intro c hc
        rcases List.mem_cons.mp hc with h | h
        · subst h
          refine ⟨hcur, ?_⟩
          show e - current + 1 = e + 1 - current
          omega
        · exact hmem c h
      · simp only [List.map_cons, List.sum_cons, hsum]
        show (e - current + 1) + (total - (e + 1)) = total - current
        omega
    · have hrest : createChunksLoop ppc total avg fuel (e + 1) = [] :=
        createChunksLoop_eq_nil ppc total avg fuel (e + 1) (by omega)
      rw [hrest]
      have he1 : e = total - 1 := by omega
      refine ⟨by simp, ?_, ?_, ?_, ?_, ?_⟩
      · intro c hc
        simp only [List.head?_cons, Option.some.injEq] at hc
        simp [← hc]
      · intro c hc
        simp only [List.getLast?_singleton, Option.some.injEq] at hc
        simp [← hc, he1]
      · simp
      · intro c hc
        simp only [List.mem_singleton] at hc
        subst hc
        refine ⟨hcur, ?_⟩
        show e - current + 1 = e + 1 - current
        omega
      · simp only [List.map_cons, List.map_nil, List.sum_cons, List.sum_nil]
        show (e - current + 1) + 0 = total - current
        omega

/-- C1: for every document with at least one page, whenever create_chunks
returns a chunk list, that list is a nonempty ordered partition of the
pages: the first chunk starts at page 0, the last ends at page P - 1,
consecutive chunks are contiguous, every chunk holds at least one page with
page_count = end_page - start_page + 1, and the page_counts sum to P. -/
theorem create_chunks_partition (chunkSizeBytes fileSize totalPages : Nat)
    (cs : List Chunk) (hP : 1 ≤ totalPages)
    (hok : create_chunks chunkSizeBytes fileSize totalPages = Except.ok cs) :
    cs ≠ [] ∧
    (∀ c, cs.head? = some c → c.start_page = 0) ∧
    (∀ c, cs.getLast? = some c → c.end_page = totalPages - 1) ∧
    List.Chain' (fun a b => b.start_page = a.end_page + 1) cs ∧
    (∀ c ∈ cs, c.start_page ≤ c.end_page ∧
      c.page_count = c.end_page + 1 - c.start_page) ∧
    (cs.map Chunk.page_count).sum = totalPages := by
  have hp' : totalPages > 0 := hP
  simp only [create_chunks] at hok
  rw [if_pos hp'] at hok
  split at hok
  · simp at hok
  · simp only [Except.ok.injEq] at hok
    subst hok
    have h := createChunksLoop_spec
      (max 1 (Int.toNat ⌊(chunkSizeBytes : ℚ) / ((fileSize : ℚ) / (totalPages : ℚ))⌋))
      totalPages ((fileSize : ℚ) / (totalPages : ℚ)) (le_max_left 1 _)
      totalPages 0 (by omega) (by omega)
    simpa using h

/-- C1 witness: the theorem applied to a concrete one-page document of 7
bytes with the default 10 MB budget. -/
theorem create_chunks_partition_witness :
    1 ≤ 1 ∧
    create_chunks 10485760 7 1 = Except.ok [⟨0, 0, 1, (7 : ℚ)/1048576⟩] ∧
    (([⟨0, 0, 1, (7 : ℚ)/1048576⟩] : List Chunk) ≠ [] ∧
     (∀ c, ([(⟨0, 0, 1, (7 : ℚ)/1048576⟩ : Chunk)] : List Chunk).head? = some c →
       c.start_page = 0) ∧
     (∀ c, ([(⟨0, 0, 1, (7 : ℚ)/1048576⟩ : Chunk)] : List Chunk).getLast? = some c →
       c.end_page = 1 - 1) ∧
     List.Chain' (fun a b => b.start_page = a.end_page + 1)
       [(⟨0, 0, 1, (7 : ℚ)/1048576⟩ : Chunk)] ∧
     (∀ c ∈ ([(⟨0, 0, 1, (7 : ℚ)/1048576⟩ : Chunk)] : List Chunk),
       c.start_page ≤ c.end_page ∧ c.page_count = c.end_page + 1 - c.start_page) ∧
     (([(⟨0, 0, 1, (7 : ℚ)/1048576⟩ : Chunk)] : List Chunk).map Chunk.page_count).sum = 1) :=
  ⟨by decide, by simp [create_chunks, createChunksLoop]; norm_num,
   create_chunks_partition 10485760 7 1 [⟨0, 0, 1, (7 : ℚ)/1048576⟩] (by decide)
     (by simp [create_chunks, createChunksLoop]; norm_num)⟩

/-- C6 counterexample: a document with 1 page and byte size 0 has
avg_page_size = 0/1 = 0.0, so pages_per_chunk's division
chunk_size_bytes / avg_page_size raises ZeroDivisionError: the computation
is not total on a positive page count with file size 0, contrary to the
claim. -/
theorem create_chunks_zero_size_error :
    create_chunks 10485760 0 1 = Except.error () := by
  simp [create_chunks]

/-- C6 amended: create_chunks never fails with a division by zero as long as
the file's byte size is positive (in particular the page-count-0 guard then
works: the average is taken to be the file size); with byte size 0 the
average page size itself is 0 and the pages-per-chunk division raises,
whatever the page count. -/
theorem create_chunks_total_of_pos_size (chunkSizeBytes fileSize totalPages : Nat)
    (h : 0 < fileSize) :
    ∃ cs, create_chunks chunkSizeBytes fileSize totalPages = Except.ok cs := by
  simp only [create_chunks]
  have havg : (if totalPages > 0 then (fileSize : ℚ) / (totalPages : ℚ)
      else (fileSize : ℚ)) ≠ 0 := by
    have hfs : (fileSize : ℚ) ≠ 0 := by
      exact_mod_cast h.ne'
    split
    · rename_i hp
      exact div_ne_zero hfs (Nat.cast_ne_zero.mpr hp.ne')
    · exact hfs
  rw [if_neg havg]
  exact ⟨_, rfl⟩

/-- C6 witness: the amended theorem applied to a 3-page, 10-byte document. -/
theorem create_chunks_total_of_pos_size_witness :
    0 < 10 ∧ ∃ cs, create_chunks 10485760 10 3 = Except.ok cs :=
  ⟨by decide, create_chunks_total_of_pos_size 10485760 10 3 (by decide)⟩

/-! ### Unfolding lemmas for the fueled recursions -/

theorem removeSoftBreaksF_fuel : ∀ (f1 f2 : Nat) (l : Text),
    l.length ≤ f1 → l.length ≤ f2 →
    removeSoftBreaksF f1 l = removeSoftBreaksF f2 l := by
  intro f1
  induction f1 with
  | zero =>
    intro f2 l h1 h2
    cases l with
    | nil => cases f2 <;> rfl
    | cons c rest => simp at h1
  | succ f ih =>
    intro f2 l h1 h2
    cases l with
    | nil => cases f2 <;> rfl
    | cons c rest =>
      cases f2 with
      | zero => simp at h2
      | succ f2p =>
        simp only [List.length_cons, Nat.succ_le_succ_iff] at h1 h2
        have hd : (rest.dropWhile isPySpace).length ≤ rest.length :=
          (List.dropWhile_sublist _).length_le
        simp only [removeSoftBreaksF]
        split
        · exact ih f2p _ (le_trans hd h1) (le_trans hd h2)
        · rw [ih f2p rest h1 h2]

theorem removeSoftBreaks_nil : removeSoftBreaks [] = [] := rfl

theorem removeSoftBreaks_cons (c : Char) (rest : Text) :
    removeSoftBreaks (c :: rest) =
      if c = '-' && (rest.takeWhile isPySpace).contains '\n' then
        removeSoftBreaks (rest.dropWhile isPySpace)
      else c :: removeSoftBreaks rest := by
  unfold removeSoftBreaks
  simp only [List.length_cons, removeSoftBreaksF]
  split
  · exact removeSoftBreaksF_fuel rest.length _ _
      (List.dropWhile_sublist _).length_le le_rfl
  · rfl

theorem collapseNLF_fuel : ∀ (f1 f2 : Nat) (l : Text),
    l.length ≤ f1 → l.length ≤ f2 →
    collapseNLF f1 l = collapseNLF f2 l := by
  intro f1
  induction f1 with
  | zero =>
    intro f2 l h1 h2
    cases l with
    | nil => cases f2 <;> rfl
    | cons c rest => simp at h1
  | succ f ih =>
    intro f2 l h1 h2
    cases l with
    | nil => cases f2 <;> rfl
    | cons c rest =>
      cases f2 with
      | zero => simp at h2
      | succ f2p =>
        simp only [List.length_cons, Nat.succ_le_succ_iff] at h1 h2
        have hd : (rest.dropWhile isPySpace).length ≤ rest.length :=
          (List.dropWhile_sublist _).length_le
        simp only [collapseNLF]
        split
        · rw [ih f2p _ (le_trans hd h1) (le_trans hd h2)]
        · rw [ih f2p rest h1 h2]

theorem collapseNL_nil : collapseNL [] = [] := rfl

theorem collapseNL_cons (c : Char) (rest : Text) :
    collapseNL (c :: rest) =
      if isPySpace c then
        rewriteNLRun (c :: rest.takeWhile isPySpace) ++
          collapseNL (rest.dropWhile isPySpace)
      else c :: collapseNL rest := by
  unfold collapseNL
  simp only [List.length_cons, collapseNLF]
  split
  · rw [collapseNLF_fuel rest.length _ _
      (List.dropWhile_sublist _).length_le le_rfl]
  · rfl

theorem composeRunF_fuel : ∀ (f1 f2 : Nat) (l : Text),
    l.length ≤ f1 + 1 → l.length ≤ f2 + 1 →
    composeRunF f1 l = composeRunF f2 l := by
  intro f1
  induction f1 with
  | zero =>
    intro f2 l h1 h2
    match l with
    | [] => cases f2 <;> rfl
    | [c] => cases f2 <;> rfl
    | a :: b :: rest => simp at h1
  | succ f ih =>
    intro f2 l h1 h2
    match l with
    | [] => cases f2 <;> rfl
    | [c] => cases f2 <;> rfl
    | a :: b :: rest =>
      cases f2 with
      | zero => simp at h2
      | succ f2p =>
        simp only [List.length_cons, Nat.succ_le_succ_iff] at h1 h2
        simp only [composeRunF]
        cases hcp : composePair a b with
        | some c =>
          exact ih f2p _ (by simpa using h1) (by simpa using h2)
        | none =>
          rw [ih f2p (b :: rest) (by simpa using h1) (by simpa using h2)]

theorem composeRun_nil : composeRun [] = [] := rfl

theorem composeRun_singleton (c : Char) : composeRun [c] = [c] := rfl

theorem composeRun_eq_some (a b c : Char) (rest : Text)
    (h : composePair a b = some c) :
    composeRun (a :: b :: rest) = composeRun (c :: rest) := by
  unfold composeRun
  simp only [List.length_cons, composeRunF, h]

theorem composeRun_eq_none (a b : Char) (rest : Text)
    (h : composePair a b = none) :
    composeRun (a :: b :: rest) = a :: composeRun (b :: rest) := by
  unfold composeRun
  simp only [List.length_cons, composeRunF, h]

/-! ### Claims about the TextFilter and the Processor -/

/-- C3 (evaluation of the code at the failing input): on the single page
"x\nx \nx  " the three raw lines are pairwise distinct, so set(lines) keeps
all three, and each strips to "x"; the counter therefore reaches 3 for "x"
from one page alone and "x" enters the repetitive set even though it occurs
on exactly one page, contradicting the claimed distinct-pages-per-line
counting (and the source's own "Count once per page" comment). -/
theorem detect_repetitive_lines_single_page :
    detect_repetitive_lines 3 ["x\nx \nx  ".data] "x".data = true := by
  decide

/-- C4: in per-page extraction OCR is invoked exactly when use_ocr is set and
the stripped embedded text has fewer than 50 characters.  First conjunct: at
50 or more stripped characters the result is the normalized embedded text,
independent of the OCR capability (so OCR is not invoked, in particular at
exactly 50).  Second: below 50 with OCR on, the embedded text is discarded
and the normalized OCR output is returned (in particular at 49).  Third: with
use_ocr false the OCR capability is never consulted. -/
theorem extract_page_text_ocr_threshold :
    (∀ (t : Text) (r : Except Unit Text) (u : Bool), 50 ≤ (pyStrip t).length →
      extract_page_text ⟨t, r⟩ u = normalize t true true true true false) ∧
    (∀ (t : Text) (r : Except Unit Text), (pyStrip t).length < 50 →
      extract_page_text ⟨t, r⟩ true =
        normalize (ocr_page ⟨t, r⟩) true true true true false) ∧
    (∀ (t : Text) (r : Except Unit Text),
      extract_page_text ⟨t, r⟩ false = normalize t true true true true false) := by
  refine ⟨?_, ?_, ?_⟩
  · intro t r u h
    simp [extract_page_text, Nat.not_lt.mpr h]
  · intro t r h
    simp [extract_page_text, h]
  · intro t r
    simp [extract_page_text]

/-- C4 witness: the theorem applied at the boundary, embedded texts of
exactly 50 and exactly 49 characters. -/
theorem extract_page_text_ocr_threshold_witness :
    50 ≤ (pyStrip (List.replicate 50 'a')).length ∧
    (pyStrip (List.replicate 49 'a')).length < 50 ∧
    extract_page_text ⟨List.replicate 50 'a', Except.ok ['o']⟩ true =
      normalize (List.replicate 50 'a') true true true true false ∧
    extract_page_text ⟨List.replicate 49 'a', Except.ok ['o']⟩ true =
      normalize (ocr_page ⟨List.replicate 49 'a', Except.ok ['o']⟩)
        true true true true false :=
  ⟨by decide, by decide,
   extract_page_text_ocr_threshold.1 (List.replicate 50 'a') (Except.ok ['o'])
     true (by decide),
   extract_page_text_ocr_threshold.2.1 (List.replicate 49 'a') (Except.ok ['o'])
     (by decide)⟩

/-- A page whose OCR call fails and whose embedded text triggered the OCR
fallback extracts to the empty string: the exception is caught in _ocr_page,
which returns "", and normalize of "" is "". -/
theorem extract_page_text_error_empty (t : Text) (h : (pyStrip t).length < 50) :
    extract_page_text ⟨t, Except.error ()⟩ true = [] := by
  have h1 : extract_page_text ⟨t, Except.error ()⟩ true =
      normalize [] true true true true false := by
    simp [extract_page_text, h, ocr_page]
  rw [h1]
  decide

/-- C8: an OCR failure on one page is caught locally.  First conjunct: the
failing page extracts to the empty string (the short embedded text that
triggered the fallback is not restored).  Second conjunct: in the per-page
extraction of a whole document, replacing any one page by a page whose OCR
call raises changes only that page's entry (to ""), so extraction of the
remaining pages continues and the call is not aborted. -/
theorem ocr_failure_is_local :
    (∀ (t : Text), (pyStrip t).length < 50 →
      extract_page_text ⟨t, Except.error ()⟩ true = []) ∧
    (∀ (ps : List PageCap) (i : Nat) (t : Text), (pyStrip t).length < 50 →
      (ps.set i ⟨t, Except.error ()⟩).map (fun p => extract_page_text p true) =
        (ps.map fun p => extract_page_text p true).set i []) := by
  refine ⟨fun t h => extract_page_text_error_empty t h, ?_⟩
  intro ps i t h
  rw [List.map_set]
  rw [extract_page_text_error_empty t h]

/-- C8 witness: a two-page document whose second page has a short text layer
and a failing OCR call. -/
theorem ocr_failure_is_local_witness :
    ((pyStrip "short".data).length < 50 ∧
      extract_page_text ⟨"short".data, Except.error ()⟩ true = []) ∧
    ([⟨"page one text".data, Except.ok []⟩,
      ⟨"x".data, Except.ok "unused".data⟩].set 1 ⟨"short".data, Except.error ()⟩).map
        (fun p => extract_page_text p true) =
      ([⟨"page one text".data, Except.ok []⟩,
        ⟨"x".data, Except.ok "unused".data⟩].map
          fun p => extract_page_text p true).set 1 [] :=
  ⟨⟨by decide, ocr_failure_is_local.1 "short".data (by decide)⟩,
   ocr_failure_is_local.2
     [⟨"page one text".data, Except.ok []⟩, ⟨"x".data, Except.ok "unused".data⟩]
     1 "short".data (by decide)⟩

/-- C7: filter_document never returns an empty page text, and the surviving
page texts form a sublist of (hence appear in the same relative order as)
the pages' individually filtered texts in input order. -/
theorem filter_document_nonempty_ordered :
    (∀ (thr : Nat) (pages : List Text) (rr rc : Bool) (t : Text),
      t ∈ filter_document thr pages rr rc → t ≠ []) ∧
    (∀ (thr : Nat) (pages : List Text) (rr rc : Bool),
      List.Sublist (filter_document thr pages rr rc)
        (pages.map fun p => filter_page p
          (if rr then detect_repetitive_lines thr pages else fun _ => false) rc)) := by
  constructor
  · intro thr pages rr rc t ht he
    subst he
    simp [filter_document, List.mem_filter] at ht
  · intro thr pages rr rc
    simp only [filter_document]
    exact List.filter_sublist _

/-- C7 witness: the theorem applied to a one-page document whose page keeps
one body line after the page-number line is dropped. -/
theorem filter_document_nonempty_ordered_witness :
    ("a".data ∈ filter_document 3 ["a\n1".data] false true ∧
      "a".data ≠ ([] : Text)) ∧
    List.Sublist (filter_document 3 ["a\n1".data] false true)
      (["a\n1".data].map fun p => filter_page p
        (if false then detect_repetitive_lines 3 ["a\n1".data]
         else fun _ => false) true) :=
  ⟨⟨by decide, filter_document_nonempty_ordered.1 3 ["a\n1".data] false true
      "a".data (by decide)⟩,
   filter_document_nonempty_ordered.2 3 ["a\n1".data] false true⟩

/-- C10: in every extraction result the total_chars field is the character
length of the text field of the same result: whole-document mode, page-range
mode, and the combined chunked result. -/
theorem total_chars_matches_text_length :
    (∀ (pages : List PageCap) (u rr rc : Bool) (fs : Nat),
      (extract_text_sync pages u rr rc fs).total_chars =
        (extract_text_sync pages u rr rc fs).text.length) ∧
    (∀ (pages : List PageCap) (sp ep : Nat) (u rr rc : Bool),
      (extract_text_range_sync pages sp ep u rr rc).total_chars =
        (extract_text_range_sync pages sp ep u rr rc).text.length) ∧
    (∀ (pages : List PageCap) (csb fs : Nat) (u rr rc : Bool) (r : ChunkedResult),
      process_chunked pages csb fs u rr rc = Except.ok r →
      r.total_chars = r.text.length) := by
  refine ⟨fun _ _ _ _ _ => rfl, fun _ _ _ _ _ _ => rfl, ?_⟩
  intro pages csb fs u rr rc r h
  unfold process_chunked at h
  cases hc : create_chunks csb fs pages.length with
  | error e => rw [hc] at h; simp [Except.map] at h
  | ok chunks =>
    rw [hc] at h
    simp only [Except.map, Except.ok.injEq] at h
    rw [← h]

/-- C10 witness: the theorem's chunked conjunct applied to a concrete 1 MB,
one-page document processed as one chunk. -/
theorem total_chars_matches_text_length_witness :
    process_chunked [⟨"hello".data, Except.ok []⟩] 10485760 1048576
      false false false =
      Except.ok ⟨"--- Page 1 ---\nhello".data, 1, 20, 1, 1, true⟩ ∧
    (⟨"--- Page 1 ---\nhello".data, 1, 20, 1, 1, true⟩ : ChunkedResult).total_chars =
      (⟨"--- Page 1 ---\nhello".data, 1, 20, 1, 1, true⟩ : ChunkedResult).text.length := by
  have hc : create_chunks 10485760 1048576 1 = Except.ok [⟨0, 0, 1, 1⟩] := by
    simp [create_chunks, createChunksLoop]
    norm_num
  have hp : process_chunked [⟨"hello".data, Except.ok []⟩] 10485760 1048576
      false false false =
      Except.ok ⟨"--- Page 1 ---\nhello".data, 1, 20, 1, 1, true⟩ := by
    unfold process_chunked
    rw [show List.length [(⟨"hello".data, Except.ok []⟩ : PageCap)] = 1 from rfl, hc]
    simp only [Except.map, Except.ok.injEq]
    rw [ChunkedResult.mk.injEq]
    refine ⟨by decide, by decide, by decide, by decide, by norm_num, rfl⟩
  exact ⟨hp, total_chars_matches_text_length.2.2 _ 10485760 1048576
    false false false _ hp⟩

/-! ### Page markers (C5) -/

theorem dropWhile_idem (p : Char → Bool) (l : Text) :
    (l.dropWhile p).dropWhile p = l.dropWhile p := by
  induction l with
  | nil => rfl
  | cons a as ih =>
    by_cases h : p a
    · rw [List.dropWhile_cons_of_pos h]; exact ih
    · rw [List.dropWhile_cons_of_neg h, List.dropWhile_cons_of_neg h]

theorem pyRstrip_pre (l : Text) : pyRstrip l <+: l := by
  obtain ⟨t, ht⟩ :=
    (List.dropWhile_suffix isPySpace :
      List.dropWhile isPySpace l.reverse <:+ l.reverse)
  refine ⟨t.reverse, ?_⟩
  have := congrArg List.reverse ht
  simpa [pyRstrip] using this

theorem pre_subset {p l : Text} (h : p <+: l) : ∀ c ∈ p, c ∈ l := by
  obtain ⟨t, ht⟩ := h
  intro c hc
  rw [← ht]
  exact List.mem_append.mpr (Or.inl hc)

theorem pre_inf {p l : Text} (h : p <+: l) : p <:+: l := by
  obtain ⟨t, ht⟩ := h
  exact ⟨[], t, by rw [List.nil_append, ht]⟩

theorem inf_refl (l : Text) : l <:+: l := ⟨[], [], by simp⟩

theorem inf_cons {m r : Text} (c : Char) (h : m <:+: r) : m <:+: c :: r := by
  obtain ⟨s, t, hst⟩ := h
  exact ⟨c :: s, t, by rw [List.cons_append, List.cons_append, hst]⟩

theorem chain'_of_inf (R : Char → Char → Prop) {m l : Text} (hi : m <:+: l)
    (h : List.Chain' R l) : List.Chain' R m := by
  obtain ⟨s, t, hst⟩ := hi
  rw [← hst] at h
  exact (h.left_of_append).right_of_append

theorem chain'_of_pre (R : Char → Char → Prop) {m l : Text} (hp : m <+: l)
    (h : List.Chain' R l) : List.Chain' R m := by
  obtain ⟨t, ht⟩ := hp
  rw [← ht] at h
  exact h.left_of_append

theorem pyStrip_dropWhile (l : Text) :
    (pyStrip l).dropWhile isPySpace = pyStrip l := by
  unfold pyStrip
  cases hA : l.dropWhile isPySpace with
  | nil => simp [pyRstrip]
  | cons a as =>
    have hidem := dropWhile_idem isPySpace l
    rw [hA] at hidem
    have ha : isPySpace a = false := by
      by_cases h : isPySpace a
      · rw [List.dropWhile_cons_of_pos h] at hidem
        have := congrArg List.length hidem
        have hle : (as.dropWhile isPySpace).length ≤ as.length :=
          (List.dropWhile_sublist _).length_le
        simp at this
        omega
      · simpa using h
    rcases hpr : pyRstrip (a :: as) with _ | ⟨b, bs⟩
    · rfl
    · have hpre := pyRstrip_pre (a :: as)
      rw [hpr] at hpre
      obtain ⟨t, ht⟩ := hpre
      simp only [List.cons_append, List.cons.injEq] at ht
      rw [List.dropWhile_cons_of_neg]
      rw [ht.1, ha]
      simp

theorem pyRstrip_pyStrip (l : Text) : pyRstrip (pyStrip l) = pyStrip l := by
  show pyRstrip (pyRstrip (l.dropWhile isPySpace)) = pyStrip l
  unfold pyRstrip pyStrip pyRstrip
  rw [List.reverse_reverse, dropWhile_idem]

theorem pyStrip_idem (l : Text) : pyStrip (pyStrip l) = pyStrip l := by
  show pyRstrip ((pyStrip l).dropWhile isPySpace) = pyStrip l
  rw [pyStrip_dropWhile, pyRstrip_pyStrip]

/-- filter_page ends with a strip, so its output is strip-invariant. -/
theorem filter_page_strip (page : Text) (R : Text → Bool) (rc : Bool) :
    pyStrip (filter_page page R rc) = filter_page page R rc := by
  simp only [filter_page]
  exact pyStrip_idem _

/-- Every page text returned by filter_document still has nonempty content
after stripping (so the marker loop skips none of them). -/
theorem filter_document_no_blank (thr : Nat) (pages : List Text) (rr rc : Bool) :
    ∀ t ∈ filter_document thr pages rr rc, (pyStrip t).isEmpty = false := by
  intro t ht
  simp only [filter_document, List.mem_filter, List.mem_map] at ht
  obtain ⟨⟨page, hpage, rfl⟩, hne⟩ := ht
  rw [filter_page_strip]
  simpa using hne

/-- When no page text in the list strips to empty, the marker loop keeps
every entry and numbers it by its position in the list. -/
theorem markedPages_enum (ts : List Text) (sp : Nat)
    (h : ∀ t ∈ ts, (pyStrip t).isEmpty = false) :
    markedPages ts sp = ts.enum.map fun q => pageMarker (sp + q.1 + 1) ++ q.2 := by
  unfold markedPages
  rw [List.filter_eq_self.mpr]
  intro q hq
  have hmem : q.2 ∈ ts := by
    have := List.mem_map_of_mem Prod.snd hq
    rwa [List.enum_map_snd] at this
  simp [h q.2 hmem]

/-- C5 counterexample: a two-page document whose first page is the bare page
number "7" (dropped by filtering).  The surviving text of original page 2
is emitted under the marker "--- Page 1 ---", not "--- Page 2 ---": markers
number by position in the filtered sequence, not by original page number. -/
theorem page_marker_counterexample :
    (extract_text_sync [⟨"7".data, Except.ok []⟩, ⟨"Body".data, Except.ok []⟩]
        false false true 0).text = pageMarker 1 ++ "Body".data ∧
    pageMarker 1 ++ "Body".data ≠ pageMarker 2 ++ "Body".data := by
  decide

/-- C5 amended: when filtering runs (remove_repetitive or remove_copyright
set), every page of the filtered sequence survives to the output, prefixed
with the literal marker "--- Page N ---" where N is the page's 1-based
position in the filtered sequence (start_page + position in range mode), and
the marked pages are joined with a blank line in order.  N coincides with the
page's original 1-based page number only when filtering dropped no earlier
page of the processing unit. -/
theorem extract_text_marker_positions :
    (∀ (pages : List PageCap) (u rr rc : Bool) (fs : Nat), (rr || rc) = true →
      (extract_text_sync pages u rr rc fs).text =
        List.intercalate "\n\n".data
          ((filter_document 3 (pages.map fun p => extract_page_text p u) rr rc).enum.map
            fun q => pageMarker (q.1 + 1) ++ q.2)) ∧
    (∀ (pages : List PageCap) (sp ep : Nat) (u rr rc : Bool), (rr || rc) = true →
      (extract_text_range_sync pages sp ep u rr rc).text =
        List.intercalate "\n\n".data
          ((filter_document 3
              (((pages.take (min (ep + 1) pages.length)).drop sp).map
                fun p => extract_page_text p u) rr rc).enum.map
            fun q => pageMarker (sp + q.1 + 1) ++ q.2)) := by
  constructor
  · intro pages u rr rc fs h
    show List.intercalate "\n\n".data
      (markedPages (if rr || rc then _ else _) 0) = _
    rw [h, if_pos rfl]
    rw [markedPages_enum _ 0 (filter_document_no_blank 3 _ rr rc)]
    simp only [Nat.zero_add]
  · intro pages sp ep u rr rc h
    show List.intercalate "\n\n".data
      (markedPages (if rr || rc then _ else _) sp) = _
    rw [h, if_pos rfl]
    rw [markedPages_enum _ sp (filter_document_no_blank 3 _ rr rc)]

/-- C5 witness: the amended theorem's whole-document conjunct applied to the
two-page document of the counterexample. -/
theorem extract_text_marker_positions_witness :
    (false || true) = true ∧
    (extract_text_sync [⟨"7".data, Except.ok []⟩, ⟨"Body".data, Except.ok []⟩]
        false false true 0).text =
      List.intercalate "\n\n".data
        ((filter_document 3
            ([⟨"7".data, Except.ok []⟩,
              (⟨"Body".data, Except.ok []⟩ : PageCap)].map
              fun p => extract_page_text p false) false true).enum.map
          fun q => pageMarker (q.1 + 1) ++ q.2) :=
  ⟨by decide,
   extract_text_marker_positions.1
     [⟨"7".data, Except.ok []⟩, ⟨"Body".data, Except.ok []⟩]
     false false true 0 (by decide)⟩

/-! ### Line-splitting and joining -/

theorem intercalate_cons_cons (sep x y : Text) (xs : List Text) :
    List.intercalate sep (x :: y :: xs) = x ++ sep ++ List.intercalate sep (y :: xs) := by
  simp [List.intercalate, List.intersperse]

theorem intercalate_singleton (sep x : Text) : List.intercalate sep [x] = x := by
  simp [List.intercalate]

theorem splitOnNL_ne_nil (l : Text) : splitOnNL l ≠ [] := by
  induction l with
  | nil => simp [splitOnNL]
  | cons c rest ih =>
    simp only [splitOnNL]
    split
    · simp
    · cases h : splitOnNL rest with
      | nil => simp
      | cons a t => simp

theorem nl_not_mem_splitOnNL (l : Text) : ∀ p ∈ splitOnNL l, '\n' ∉ p := by
  induction l with
  | nil =>
    intro p hp
    simp only [splitOnNL, List.mem_singleton] at hp
    simp [hp]
  | cons c rest ih =>
    intro p hp
    simp only [splitOnNL] at hp
    by_cases hc : c = '\n'
    · rw [if_pos hc] at hp
      rcases List.mem_cons.mp hp with h | h
      · simp [h]
      · exact ih p h
    · rw [if_neg hc] at hp
      cases hs : splitOnNL rest with
      | nil => exact absurd hs (splitOnNL_ne_nil rest)
      | cons a t =>
        rw [hs] at hp
        rcases List.mem_cons.mp hp with h | h
        · subst h
          intro hmem
          rcases List.mem_cons.mp hmem with h1 | h1
          · exact hc h1.symm
          · exact ih a (hs ▸ List.mem_cons_self a t) h1
        · exact ih p (hs ▸ List.mem_cons.mpr (Or.inr h))

theorem intercalate_splitOnNL (l : Text) :
    List.intercalate ['\n'] (splitOnNL l) = l := by
  induction l with
  | nil => rfl
  | cons c rest ih =>
    simp only [splitOnNL]
    split
    · rename_i hc
      cases hs : splitOnNL rest with
      | nil => exact absurd hs (splitOnNL_ne_nil rest)
      | cons a t =>
        rw [hs] at ih
        rw [intercalate_cons_cons, ih, hc]
        rfl
    · rename_i hc
      cases hs : splitOnNL rest with
      | nil => exact absurd hs (splitOnNL_ne_nil rest)
      | cons a t =>
        rw [hs] at ih
        cases t with
        | nil =>
          rw [intercalate_singleton] at ih ⊢
          rw [ih]
        | cons b t2 =>
          rw [intercalate_cons_cons] at ih
          rw [intercalate_cons_cons, List.cons_append, List.cons_append, ih]

/-- Lines without a newline split to themselves. -/
theorem splitOnNL_no_nl (x : Text) (h : '\n' ∉ x) : splitOnNL x = [x] := by
  induction x with
  | nil => rfl
  | cons c r ih =>
    simp only [List.mem_cons, not_or] at h
    have hc : ¬c = '\n' := fun hc => h.1 hc.symm
    simp only [splitOnNL, if_neg hc]
    rw [ih h.2]

theorem splitOnNL_append_nl (x : Text) : ∀ (m : Text), '\n' ∉ x →
    splitOnNL (x ++ '\n' :: m) = x :: splitOnNL m := by
  induction x with
  | nil =>
    intro m _
    simp [splitOnNL]
  | cons c r ih =>
    intro m h
    simp only [List.mem_cons, not_or] at h
    have hc : ¬c = '\n' := fun hc => h.1 hc.symm
    have hrw : (c :: r) ++ '\n' :: m = c :: (r ++ '\n' :: m) := rfl
    rw [hrw]
    simp only [splitOnNL, if_neg hc]
    rw [ih m h.2]

/-- The splitter inverts the join when no piece holds a newline and the
piece list is nonempty. -/
theorem splitOnNL_intercalate : ∀ (xs : List Text), xs ≠ [] →
    (∀ x ∈ xs, '\n' ∉ x) → splitOnNL (List.intercalate ['\n'] xs) = xs := by
  intro xs
  induction xs with
  | nil => intro h; exact absurd rfl h
  | cons x ys ih =>
    intro _ hnl
    cases ys with
    | nil =>
      rw [intercalate_singleton]
      exact splitOnNL_no_nl x (hnl x (List.mem_cons_self x []))
    | cons y t =>
      rw [intercalate_cons_cons, List.append_assoc]
      have hx : '\n' ∉ x := hnl x (List.mem_cons_self x (y :: t))
      have hrw : ['\n'] ++ List.intercalate ['\n'] (y :: t) =
          '\n' :: List.intercalate ['\n'] (y :: t) := rfl
      rw [hrw, splitOnNL_append_nl x _ hx]
      rw [ih (by simp) (fun z hz => hnl z (List.mem_cons.mpr (Or.inr hz)))]

/-- Every piece of the line split is an infix of the text. -/
theorem splitOnNL_piece_inf (l : Text) : ∀ p ∈ splitOnNL l, p <:+: l := by
  induction l with
  | nil =>
    intro p hp
    simp only [splitOnNL, List.mem_singleton] at hp
    simp [hp]
  | cons c rest ih =>
    intro p hp
    simp only [splitOnNL] at hp
    by_cases hc : c = '\n'
    · rw [if_pos hc] at hp
      rcases List.mem_cons.mp hp with h | h
      · simp [h]
      · exact (ih p h).trans (inf_cons _ (inf_refl rest))
    · rw [if_neg hc] at hp
      cases hs : splitOnNL rest with
      | nil => exact absurd hs (splitOnNL_ne_nil rest)
      | cons a t =>
        rw [hs] at hp
        rcases List.mem_cons.mp hp with h | h
        · subst h
          have ha : a <+: rest := by
            have h2 := intercalate_splitOnNL rest
            rw [hs] at h2
            cases t with
            | nil =>
              rw [intercalate_singleton] at h2
              exact ⟨[], by simp [h2]⟩
            | cons b t2 =>
              rw [intercalate_cons_cons] at h2
              refine ⟨'\n' :: List.intercalate ['\n'] (b :: t2), ?_⟩
              rw [← h2, List.append_assoc]
              rfl
          obtain ⟨tl, htl⟩ := ha
          exact pre_inf ⟨tl, by rw [List.cons_append, htl]⟩
        · exact (ih p (hs ▸ List.mem_cons.mpr (Or.inr h))).trans
            (inf_cons _ (inf_refl rest))

/-! ### Whitespace deletion and the three-newline pattern

Each pass of clean_whitespace only deletes whitespace characters (the
paragraph-break rewrite keeps the run's first and last newline and a newline
from its middle).  WsDel l l' says l' is l with some whitespace characters
removed; the re.sub(r'\n\s*\n\s*\n+') pattern (TripleNL) can only be
destroyed, never created, by such deletions. -/

inductive WsDel : Text → Text → Prop
  | nil : WsDel [] []
  | keep (c : Char) {l l' : Text} : WsDel l l' → WsDel (c :: l) (c :: l')
  | drop (c : Char) {l l' : Text} : isPySpace c = true → WsDel l l' →
      WsDel (c :: l) l'

theorem wsdel_refl (l : Text) : WsDel l l := by
  induction l with
  | nil => exact WsDel.nil
  | cons c rest ih => exact WsDel.keep c ih

theorem wsdel_sublist {l l' : Text} (h : WsDel l l') : List.Sublist l' l := by
  induction h with
  | nil => exact List.Sublist.refl []
  | keep c _ ih => exact List.Sublist.cons₂ c ih
  | drop c _ _ ih => exact List.Sublist.cons c ih

theorem wsdel_append {a a' b b' : Text} (ha : WsDel a a') (hb : WsDel b b') :
    WsDel (a ++ b) (a' ++ b') := by
  induction ha with
  | nil => exact hb
  | keep c _ ih => exact WsDel.keep c ih
  | drop c hc _ ih => exact WsDel.drop c hc ih

theorem wsdel_drop_pre {s m m' : Text} (hs : ∀ c ∈ s, isPySpace c = true)
    (h : WsDel m m') : WsDel (s ++ m) m' := by
  induction s with
  | nil => exact h
  | cons c rest ih =>
    exact WsDel.drop c (hs c (List.mem_cons_self c rest))
      (ih fun d hd => hs d (List.mem_cons.mpr (Or.inr hd)))

theorem wsdel_all_ws {a b : Text} (h : WsDel a b)
    (hb : ∀ c ∈ b, isPySpace c = true) : ∀ c ∈ a, isPySpace c = true := by
  induction h with
  | nil => exact hb
  | keep c hd ih =>
    intro d hdm
    rcases List.mem_cons.mp hdm with h1 | h1
    · subst h1
      exact hb d (List.mem_cons_self d _)
    · exact ih (fun e he => hb e (List.mem_cons.mpr (Or.inr he))) d h1
  | drop c hc hd ih =>
    intro d hdm
    rcases List.mem_cons.mp hdm with h1 | h1
    · subst h1; exact hc
    · exact ih hb d h1

theorem wsdel_split_nl {l l' : Text} (h : WsDel l l') :
    ∀ u' r', l' = u' ++ '\n' :: r' →
    ∃ u r, l = u ++ '\n' :: r ∧ WsDel u u' ∧ WsDel r r' := by
  induction h with
  | nil =>
    intro u' r' habs
    exact absurd habs.symm (by simp)
  | keep c hdel ih =>
    intro u' r' heq
    cases u' with
    | nil =>
      simp only [List.nil_append, List.cons.injEq] at heq
      exact ⟨[], _, by simp [heq.1], WsDel.nil, heq.2 ▸ hdel⟩
    | cons d u2 =>
      simp only [List.cons_append, List.cons.injEq] at heq
      obtain ⟨u3, r3, hl, hu, hr⟩ := ih u2 r' heq.2
      exact ⟨c :: u3, r3, by rw [List.cons_append, hl],
        heq.1 ▸ WsDel.keep c hu, hr⟩
  | drop c hc hdel ih =>
    intro u' r' heq
    obtain ⟨u3, r3, hl, hu, hr⟩ := ih u' r' heq
    exact ⟨c :: u3, r3, by rw [List.cons_append, hl], WsDel.drop c hc hu, hr⟩

/-- An occurrence of the pattern of re.search(r'\n\s*\n\s*\n'): three
newlines with only whitespace between them. -/
def TripleNL (l : Text) : Prop :=
  ∃ u m1 m2 v, l = u ++ '\n' :: (m1 ++ '\n' :: (m2 ++ '\n' :: v)) ∧
    (∀ c ∈ m1, isPySpace c = true) ∧ (∀ c ∈ m2, isPySpace c = true)

theorem tripleNL_wsdel {l l' : Text} (h : WsDel l l') (ht : TripleNL l') :
    TripleNL l := by
  obtain ⟨u', m1', m2', v', heq, h1', h2'⟩ := ht
  obtain ⟨u, r, hl, hwu, hwr⟩ := wsdel_split_nl h u' _ heq
  obtain ⟨m1, r2, hr, hwm1, hwr2⟩ := wsdel_split_nl hwr m1' _ rfl
  obtain ⟨m2, r3, hr2, hwm2, hwr3⟩ := wsdel_split_nl hwr2 m2' _ rfl
  refine ⟨u, m1, m2, r3, ?_, wsdel_all_ws hwm1 h1', wsdel_all_ws hwm2 h2'⟩
  rw [hl, hr, hr2]

theorem tripleNL_of_inf {m l : Text} (h : TripleNL m) (hi : m <:+: l) :
    TripleNL l := by
  obtain ⟨u, m1, m2, v, heq, h1, h2⟩ := h
  obtain ⟨s, t, hst⟩ := hi
  refine ⟨s ++ u, m1, m2, v ++ t, ?_, h1, h2⟩
  rw [← hst, heq]
  simp [List.append_assoc]

theorem tripleNL_count {l : Text} (h : TripleNL l) : 3 ≤ l.count '\n' := by
  obtain ⟨u, m1, m2, v, heq, _, _⟩ := h
  subst heq
  simp [List.count_append, List.count_cons]
  omega

theorem count_exists_split (l : Text) (a : Char) (h : 1 ≤ l.count a) :
    ∃ u v, l = u ++ a :: v ∧ v.count a = l.count a - 1 := by
  induction l with
  | nil => simp at h
  | cons c rest ih =>
    by_cases hc : c = a
    · subst hc
      exact ⟨[], rest, rfl, by simp [List.count_cons]⟩
    · have hcnt : (c :: rest).count a = rest.count a := by
        simp [List.count_cons, hc]
      rw [hcnt] at h ⊢
      obtain ⟨u, v, hl, hv⟩ := ih h
      exact ⟨c :: u, v, by rw [List.cons_append, hl], hv⟩

theorem tripleNL_of_count (run : Text) (hws : ∀ c ∈ run, isPySpace c = true)
    (h3 : 3 ≤ run.count '\n') : TripleNL run := by
  obtain ⟨u1, v1, h1, hc1⟩ := count_exists_split run '\n' (by omega)
  have hv1 : 2 ≤ v1.count '\n' := by omega
  obtain ⟨u2, v2, h2, hc2⟩ := count_exists_split v1 '\n' (by omega)
  have hv2 : 1 ≤ v2.count '\n' := by omega
  obtain ⟨u3, v3, h3', _⟩ := count_exists_split v2 '\n' (by omega)
  refine ⟨u1, u2, u3, v3, ?_, ?_, ?_⟩
  · rw [h1, h2, h3']
  · intro c hc
    apply hws
    rw [h1, h2]
    simp [hc]
  · intro c hc
    apply hws
    rw [h1, h2, h3']
    simp [hc]

theorem tripleNL_cons {c : Char} {m : Text} (h : TripleNL (c :: m))
    (hc : isPySpace c = false) : TripleNL m := by
  obtain ⟨u, m1, m2, v, heq, h1, h2⟩ := h
  cases u with
  | nil =>
    simp only [List.nil_append, List.cons.injEq] at heq
    rw [heq.1] at hc
    simp [isPySpace] at hc
  | cons d u2 =>
    simp only [List.cons_append, List.cons.injEq] at heq
    exact ⟨u2, m1, m2, v, heq.2, h1, h2⟩

/-! ### Properties of collapseSpaces -/

/-- No two adjacent spaces: the fixpoints of the space-collapsing pass. -/
def NoDoubleSpace (l : Text) : Prop :=
  List.Chain' (fun a b => ¬(a = ' ' ∧ b = ' ')) l

theorem collapseSpacesAux_wsdel : ∀ (b : Bool) (l : Text),
    WsDel l (collapseSpacesAux b l) := by
  intro b l
  induction l generalizing b with
  | nil => exact WsDel.nil
  | cons c rest ih =>
    by_cases hc : c = ' '
    · subst hc
      cases b with
      | true =>
        simp only [collapseSpacesAux, if_pos rfl]
        exact WsDel.drop ' ' (by simp [isPySpace]) (ih true)
      | false =>
        simp only [collapseSpacesAux, if_pos rfl]
        exact WsDel.keep ' ' (ih true)
    · simp only [collapseSpacesAux, if_neg hc]
      exact WsDel.keep c (ih false)

theorem collapseSpacesAux_true_head (l : Text) :
    ∀ y ∈ (collapseSpacesAux true l).head?, y ≠ ' ' := by
  induction l with
  | nil => intro y hy; simp [collapseSpacesAux] at hy
  | cons c rest ih =>
    by_cases hc : c = ' '
    · subst hc
      simpa [collapseSpacesAux] using ih
    · intro y hy
      simp only [collapseSpacesAux, if_neg hc, List.head?_cons,
        Option.mem_def, Option.some.injEq] at hy
      subst hy
      exact hc

theorem collapseSpacesAux_false_head (l : Text) :
    (collapseSpacesAux false l).head? = l.head? := by
  cases l with
  | nil => rfl
  | cons c rest =>
    by_cases hc : c = ' '
    · subst hc; simp [collapseSpacesAux]
    · simp [collapseSpacesAux, if_neg hc]

theorem collapseSpacesAux_noDS (b : Bool) (l : Text) :
    NoDoubleSpace (collapseSpacesAux b l) := by
  induction l generalizing b with
  | nil => exact List.chain'_nil
  | cons c rest ih =>
    by_cases hc : c = ' '
    · subst hc
      cases b with
      | true => simpa [collapseSpacesAux] using ih true
      | false =>
        show NoDoubleSpace (' ' :: collapseSpacesAux true rest)
        rw [NoDoubleSpace, List.chain'_cons']
        refine ⟨?_, ih true⟩
        intro y hy h
        exact collapseSpacesAux_true_head rest y hy h.2
    · simp only [collapseSpacesAux, if_neg hc]
      rw [NoDoubleSpace, List.chain'_cons']
      refine ⟨?_, ih false⟩
      intro y _ h
      exact hc h.1

theorem collapseSpacesAux_transfer (R : Char → Char → Prop)
    (h1 : ∀ x, R x ' ') (h2 : ∀ y, R ' ' y) :
    ∀ (b : Bool) (l : Text), List.Chain' R l →
    List.Chain' R (collapseSpacesAux b l) := by
  intro b l
  induction l generalizing b with
  | nil => intro _; exact List.chain'_nil
  | cons c rest ih =>
    intro h
    obtain ⟨hc0, hr⟩ := List.chain'_cons'.mp h
    by_cases hc : c = ' '
    · subst hc
      cases b with
      | true => simpa [collapseSpacesAux] using ih true hr
      | false =>
        show List.Chain' R (' ' :: collapseSpacesAux true rest)
        exact List.chain'_cons'.mpr ⟨fun y _ => h2 y, ih true hr⟩
    · simp only [collapseSpacesAux, if_neg hc]
      refine List.chain'_cons'.mpr ⟨?_, ih false hr⟩
      intro y hy
      rw [collapseSpacesAux_false_head] at hy
      exact hc0 y hy

theorem collapseSpacesAux_id (l : Text) (h : NoDoubleSpace l) :
    collapseSpacesAux false l = l ∧
    ((∀ y ∈ l.head?, y ≠ ' ') → collapseSpacesAux true l = l) := by
  induction l with
  | nil => exact ⟨rfl, fun _ => rfl⟩
  | cons c rest ih =>
    obtain ⟨hc0, hr⟩ := List.chain'_cons'.mp h
    obtain ⟨ih1, ih2⟩ := ih hr
    by_cases hc : c = ' '
    · subst hc
      have hrest : collapseSpacesAux true rest = rest := by
        apply ih2
        intro y hy heq
        exact hc0 y hy ⟨rfl, heq⟩
      constructor
      · show ' ' :: collapseSpacesAux true rest = ' ' :: rest
        rw [hrest]
      · intro hhead
        exact absurd rfl (hhead ' ' (by simp))
    · constructor
      · simp only [collapseSpacesAux, if_neg hc, ih1]
      · intro _
        simp only [collapseSpacesAux, if_neg hc, ih1]

theorem collapseSpaces_wsdel (l : Text) : WsDel l (collapseSpaces l) :=
  collapseSpacesAux_wsdel false l

theorem collapseSpaces_noDS (l : Text) : NoDoubleSpace (collapseSpaces l) :=
  collapseSpacesAux_noDS false l

theorem collapseSpaces_transfer (R : Char → Char → Prop)
    (h1 : ∀ x, R x ' ') (h2 : ∀ y, R ' ' y) (l : Text)
    (h : List.Chain' R l) : List.Chain' R (collapseSpaces l) :=
  collapseSpacesAux_transfer R h1 h2 false l h

theorem collapseSpaces_id (l : Text) (h : NoDoubleSpace l) :
    collapseSpaces l = l :=
  (collapseSpacesAux_id l h).1

/-! ### A Chain' helper for newline joins -/

theorem head?_intercalate_nl (xs : List Text) (z : Char)
    (hz : (List.intercalate ['\n'] xs).head? = some z) :
    z = '\n' ∨ ∃ x ∈ xs, x.head? = some z := by
  cases xs with
  | nil => simp [List.intercalate] at hz
  | cons y t =>
    cases t with
    | nil =>
      rw [intercalate_singleton] at hz
      exact Or.inr ⟨y, by simp, hz⟩
    | cons b t2 =>
      rw [intercalate_cons_cons] at hz
      cases y with
      | nil =>
        simp only [List.nil_append, List.singleton_append, List.head?_cons,
          Option.some.injEq] at hz
        exact Or.inl hz.symm
      | cons cy ry =>
        simp only [List.cons_append, List.head?_cons, Option.some.injEq] at hz
        exact Or.inr ⟨cy :: ry, by simp, by simp [hz]⟩

theorem chain'_intercalate_nl (R : Char → Char → Prop) :
    ∀ (xs : List Text), (∀ x ∈ xs, List.Chain' R x) →
    (∀ x ∈ xs, ∀ y ∈ x.getLast?, R y '\n') →
    (∀ x ∈ xs, ∀ y ∈ x.head?, R '\n' y) →
    R '\n' '\n' →
    List.Chain' R (List.intercalate ['\n'] xs) := by
  intro xs
  induction xs with
  | nil => intro _ _ _ _; exact List.chain'_nil
  | cons x t ih =>
    intro hx hlast hhead hnn
    cases t with
    | nil =>
      rw [intercalate_singleton]
      exact hx x (by simp)
    | cons y t2 =>
      rw [intercalate_cons_cons]
      rw [List.append_assoc]
      rw [List.chain'_append]
      refine ⟨hx x (by simp), ?_, ?_⟩
      · rw [show (['\n'] : Text) ++ List.intercalate ['\n'] (y :: t2) =
          '\n' :: List.intercalate ['\n'] (y :: t2) from rfl]
        rw [List.chain'_cons']
        constructor
        · intro z hz
          rcases head?_intercalate_nl (y :: t2) z hz with h | ⟨w, hw, hwz⟩
          · subst h; exact hnn
          · exact hhead w (by simp [List.mem_cons.mp hw]) z hwz
        · exact ih (fun w hw => hx w (by simp [hw]))
            (fun w hw => hlast w (by simp [hw]))
            (fun w hw => hhead w (by simp [hw])) hnn
      · intro a ha b hb
        rw [show (['\n'] : Text) ++ List.intercalate ['\n'] (y :: t2) =
          '\n' :: List.intercalate ['\n'] (y :: t2) from rfl] at hb
        simp only [List.head?_cons, Option.mem_def, Option.some.injEq] at hb
        subst hb
        exact hlast x (by simp) a ha

/-! ### Properties of the paragraph-break run rewrite -/

theorem dropWhile_head_false (q : Char → Bool) (l : Text) :
    ∀ c rest, l.dropWhile q = c :: rest → q c = false := by
  induction l with
  | nil => intro c rest h; simp at h
  | cons a as ih =>
    intro c rest h
    by_cases ha : q a
    · rw [List.dropWhile_cons_of_pos ha] at h
      exact ih c rest h
    · rw [List.dropWhile_cons_of_neg ha] at h
      obtain ⟨h1, _⟩ := List.cons.injEq .. |>.mp h
      subst h1
      simpa using ha

theorem takeWhile_append_stop (q : Char → Bool) (u v : Text)
    (h : ∃ x ∈ u, q x = false) :
    (u ++ v).takeWhile q = u.takeWhile q := by
  induction u with
  | nil =>
    obtain ⟨x, hx, _⟩ := h
    simp at hx
  | cons a as ih =>
    by_cases ha : q a
    · rw [List.cons_append, List.takeWhile_cons_of_pos ha,
        List.takeWhile_cons_of_pos ha]
      obtain ⟨x, hx, hqx⟩ := h
      rcases List.mem_cons.mp hx with h1 | h1
      · subst h1; rw [ha] at hqx; cases hqx
      · rw [ih ⟨x, h1, hqx⟩]
    · rw [List.cons_append, List.takeWhile_cons_of_neg ha,
        List.takeWhile_cons_of_neg ha]

theorem split_first_nl (l : Text) (h : '\n' ∈ l) :
    ∃ core, l = l.takeWhile (fun c => c ≠ '\n') ++ '\n' :: core := by
  cases hd : l.dropWhile (fun c => c ≠ '\n') with
  | nil =>
    rw [List.dropWhile_eq_nil_iff] at hd
    have := hd '\n' h
    simp at this
  | cons c core =>
    have hc := dropWhile_head_false _ l c core hd
    simp only [decide_eq_false_iff_not, not_not] at hc
    subst hc
    refine ⟨core, ?_⟩
    conv_lhs => rw [← List.takeWhile_append_dropWhile (fun c => c ≠ '\n') l]
    rw [hd]

theorem split_last_nl (l : Text) (h : '\n' ∈ l) :
    ∃ core, l = core ++ '\n' :: (l.reverse.takeWhile (fun c => c ≠ '\n')).reverse := by
  obtain ⟨core, hcore⟩ := split_first_nl l.reverse (by simpa using h)
  refine ⟨core.reverse, ?_⟩
  have h2 : l = ('\n' :: core).reverse ++ (l.reverse.takeWhile (fun c => c ≠ '\n')).reverse := by
    rw [← List.reverse_append, ← hcore, List.reverse_reverse]
  conv_lhs => rw [h2, List.reverse_cons, List.append_assoc]
  rfl

theorem nlFreeSuffix_append (a b : Text) (h : '\n' ∈ b) :
    ((a ++ b).reverse.takeWhile (fun c => c ≠ '\n')).reverse =
      (b.reverse.takeWhile (fun c => c ≠ '\n')).reverse := by
  rw [List.reverse_append]
  rw [takeWhile_append_stop _ b.reverse a.reverse ⟨'\n', by simpa using h, by simp⟩]

theorem count_takeWhile_ne_nl (l : Text) :
    (l.takeWhile (fun c => c ≠ '\n')).count '\n' = 0 := by
  rw [List.count_eq_zero]
  intro h
  have := List.mem_takeWhile_imp h
  simp at this

theorem rewriteNLRun_all_ws (run : Text) (h : ∀ c ∈ run, isPySpace c = true) :
    ∀ c ∈ rewriteNLRun run, isPySpace c = true := by
  intro c hc
  unfold rewriteNLRun at hc
  split at hc
  · simp only [List.mem_append, List.mem_cons] at hc
    rcases hc with h1 | h1 | h1 | h1
    · exact h c ((List.takeWhile_prefix _).subset h1)
    · subst h1; simp [isPySpace]
    · subst h1; simp [isPySpace]
    · refine h c ?_
      have : c ∈ run.reverse.takeWhile (fun c => c ≠ '\n') := by
        simpa using h1
      have := (List.takeWhile_prefix _).subset this
      simpa using this
  · exact h c hc

theorem rewriteNLRun_count_le (run : Text) :
    (rewriteNLRun run).count '\n' ≤ 2 := by
  unfold rewriteNLRun
  split
  · have hrev : List.count '\n' ((run.reverse.takeWhile (fun c => c ≠ '\n')).reverse) = 0 := by
      rw [List.count_reverse]
      exact count_takeWhile_ne_nl run.reverse
    have h2 : List.count '\n'
        ('\n' :: '\n' :: (run.reverse.takeWhile (fun c => c ≠ '\n')).reverse) = 2 := by
      rw [List.count_cons_self, List.count_cons_self, hrev]
    rw [List.count_append, count_takeWhile_ne_nl, h2]
  · omega

theorem rewriteNLRun_head? (run : Text) :
    (rewriteNLRun run).head? = run.head? := by
  unfold rewriteNLRun
  split
  · rename_i h3
    cases run with
    | nil => simp at h3
    | cons c rest =>
      by_cases hc : c = '\n'
      · subst hc
        rw [List.takeWhile_cons_of_neg (by simp)]
        simp
      · rw [List.takeWhile_cons_of_pos (by simpa using hc)]
        simp
  · rfl

theorem rewriteNLRun_ne_nil (run : Text) (h : run ≠ []) :
    rewriteNLRun run ≠ [] := by
  intro habs
  have := rewriteNLRun_head? run
  rw [habs] at this
  cases run with
  | nil => exact h rfl
  | cons c rest => simp at this

theorem rewriteNLRun_wsdel (run : Text) (hws : ∀ c ∈ run, isPySpace c = true) :
    WsDel run (rewriteNLRun run) := by
  unfold rewriteNLRun
  split
  · rename_i h3
    have hmem : '\n' ∈ run := by
      rw [← List.count_pos_iff]
      omega
    obtain ⟨core, hcore⟩ := split_first_nl run hmem
    have hcount : run.count '\n' =
        (run.takeWhile (fun c => c ≠ '\n')).count '\n' + 1 + core.count '\n' := by
      conv_lhs => rw [hcore]
      simp [List.count_append, List.count_cons]
      omega
    rw [count_takeWhile_ne_nl] at hcount
    have hcore_mem : '\n' ∈ core := by
      rw [← List.count_pos_iff]
      omega
    have hsfx1 : (run.reverse.takeWhile (fun c => c ≠ '\n')).reverse =
        (core.reverse.takeWhile (fun c => c ≠ '\n')).reverse := by
      have e1 := nlFreeSuffix_append (run.takeWhile (fun c => c ≠ '\n'))
        ('\n' :: core) (by simp)
      rw [← hcore] at e1
      have e2 := nlFreeSuffix_append ['\n'] core hcore_mem
      rw [e1]
      exact e2
    obtain ⟨z, hz⟩ := split_last_nl core hcore_mem
    rw [hsfx1]
    conv_lhs => rw [hcore]
    apply wsdel_append (wsdel_refl _)
    apply WsDel.keep '\n'
    conv_lhs => rw [hz]
    apply wsdel_drop_pre
    · intro d hd
      apply hws
      rw [hcore, hz]
      simp only [List.mem_append, List.mem_cons]
      tauto
    · exact wsdel_refl _
  · exact wsdel_refl run

/-- A three-newline whitespace pattern cannot straddle a boundary whose right
side starts with a non-whitespace character. -/
theorem tripleNL_append {A B : Text}
    (hB : ∀ z ∈ B.head?, isPySpace z = false)
    (h : TripleNL (A ++ B)) : TripleNL A ∨ TripleNL B := by
  obtain ⟨u, m1, m2, v, heq, h1, h2⟩ := h
  rcases List.append_eq_append_iff.mp heq with ⟨a1, hu, hB1⟩ | ⟨c1, hA, hrest1⟩
  · exact Or.inr ⟨a1, m1, m2, v, hB1, h1, h2⟩
  · cases c1 with
    | nil =>
      simp only [List.nil_append] at hrest1
      have := hB '\n' (by rw [← hrest1]; rfl)
      simp [isPySpace] at this
    | cons d c2 =>
      rw [List.cons_append] at hrest1
      injection hrest1 with hd hrest2
      subst hd
      rcases List.append_eq_append_iff.mp hrest2 with ⟨a2, hc2, hX⟩ | ⟨c3, hm1, hB3⟩
      · cases a2 with
        | nil =>
          simp only [List.nil_append] at hX
          have := hB '\n' (by rw [← hX]; rfl)
          simp [isPySpace] at this
        | cons e a3 =>
          rw [List.cons_append] at hX
          injection hX with he hrest3
          subst he
          rcases List.append_eq_append_iff.mp hrest3 with ⟨a4, ha3, hY⟩ | ⟨c5, hm2, hB5⟩
          · cases a4 with
            | nil =>
              simp only [List.nil_append] at hY
              have := hB '\n' (by rw [← hY]; rfl)
              simp [isPySpace] at this
            | cons f a5 =>
              rw [List.cons_append] at hY
              injection hY with hf _
              subst hf
              refine Or.inl ⟨u, m1, m2, a5, ?_, h1, h2⟩
              rw [hA, hc2, ha3]
          · cases c5 with
            | nil =>
              simp only [List.nil_append] at hB5
              have := hB '\n' (by rw [hB5]; rfl)
              simp [isPySpace] at this
            | cons g c6 =>
              have hg : isPySpace g = true := h2 g (by rw [hm2]; simp)
              have hg2 := hB g (by rw [hB5]; rfl)
              rw [hg] at hg2
              cases hg2
      · cases c3 with
        | nil =>
          simp only [List.nil_append] at hB3
          have := hB '\n' (by rw [hB3]; rfl)
          simp [isPySpace] at this
        | cons g c4 =>
          have hg : isPySpace g = true := h1 g (by rw [hm1]; simp)
          have hg2 := hB g (by rw [hB3]; rfl)
          rw [hg] at hg2
          cases hg2

/-- collapseNL preserves the head character. -/
theorem collapseNL_head? (l : Text) : (collapseNL l).head? = l.head? := by
  cases l with
  | nil => rfl
  | cons c rest =>
    rw [collapseNL_cons]
    split
    · rename_i hc
      rw [List.head?_append_of_ne_nil]
      · exact rewriteNLRun_head? _
      · exact rewriteNLRun_ne_nil _ (by simp)
    · rfl

theorem not_tripleNL_nil : ¬ TripleNL [] := by
  intro h
  obtain ⟨u, m1, m2, v, heq, _, _⟩ := h
  exact absurd heq (by simp)

theorem run_all_ws (c : Char) (rest : Text) (hc : isPySpace c = true) :
    ∀ d ∈ c :: rest.takeWhile isPySpace, isPySpace d = true := by
  intro d hd
  rcases List.mem_cons.mp hd with h | h
  · subst h; exact hc
  · exact List.mem_takeWhile_imp h

theorem dropWhile_head?_false (q : Char → Bool) (l : Text) :
    ∀ z ∈ (l.dropWhile q).head?, q z = false := by
  intro z hz
  cases hd : l.dropWhile q with
  | nil => rw [hd] at hz; simp at hz
  | cons a rest =>
    rw [hd] at hz
    simp only [List.head?_cons, Option.mem_def, Option.some.injEq] at hz
    subst hz
    exact dropWhile_head_false q l _ rest hd

theorem getLast?_suffix {s l : Text} (h : s <:+ l) (hne : s ≠ []) :
    l.getLast? = s.getLast? := by
  obtain ⟨t, ht⟩ := h
  rw [← ht]
  exact List.getLast?_append_of_ne_nil _ hne

theorem collapseNL_wsdel (l : Text) : WsDel l (collapseNL l) := by
  suffices h : ∀ (n : Nat) (l : Text), l.length ≤ n → WsDel l (collapseNL l) from
    h l.length l le_rfl
  intro n
  induction n with
  | zero =>
    intro l hl
    have : l = [] := List.length_eq_zero.mp (Nat.le_zero.mp hl)
    subst this
    exact WsDel.nil
  | succ n ih =>
    intro l hl
    cases l with
    | nil => exact WsDel.nil
    | cons c rest =>
      simp only [List.length_cons, Nat.succ_le_succ_iff] at hl
      rw [collapseNL_cons]
      by_cases hc : isPySpace c
      · rw [if_pos hc]
        have hsplit : c :: rest =
            (c :: rest.takeWhile isPySpace) ++ rest.dropWhile isPySpace := by
          rw [List.cons_append, List.takeWhile_append_dropWhile]
        rw [hsplit]
        exact wsdel_append (rewriteNLRun_wsdel _ (run_all_ws c rest hc))
          (ih _ (le_trans (List.dropWhile_sublist _).length_le hl))
      · rw [if_neg hc]
        exact WsDel.keep c (ih rest hl)

theorem collapseNL_tripleFree (l : Text) : ¬ TripleNL (collapseNL l) := by
  suffices h : ∀ (n : Nat) (l : Text), l.length ≤ n → ¬ TripleNL (collapseNL l) from
    h l.length l le_rfl
  intro n
  induction n with
  | zero =>
    intro l hl
    have : l = [] := List.length_eq_zero.mp (Nat.le_zero.mp hl)
    subst this
    exact not_tripleNL_nil
  | succ n ih =>
    intro l hl
    cases l with
    | nil => exact not_tripleNL_nil
    | cons c rest =>
      simp only [List.length_cons, Nat.succ_le_succ_iff] at hl
      rw [collapseNL_cons]
      by_cases hc : isPySpace c
      · rw [if_pos hc]
        intro ht
        have hhead : ∀ z ∈ (collapseNL (rest.dropWhile isPySpace)).head?,
            isPySpace z = false := by
          rw [collapseNL_head?]
          exact dropWhile_head?_false isPySpace rest
        rcases tripleNL_append hhead ht with h | h
        · have := tripleNL_count h
          have := rewriteNLRun_count_le (c :: rest.takeWhile isPySpace)
          omega
        · exact ih _ (le_trans (List.dropWhile_sublist _).length_le hl) h
      · rw [if_neg hc]
        intro ht
        exact ih rest hl (tripleNL_cons ht (by simpa using hc))

theorem collapseNL_id (l : Text) (h : ¬ TripleNL l) : collapseNL l = l := by
  revert h
  suffices hgen : ∀ (n : Nat) (l : Text), l.length ≤ n → ¬ TripleNL l →
      collapseNL l = l from hgen l.length l le_rfl
  intro n
  induction n with
  | zero =>
    intro l hl _
    have : l = [] := List.length_eq_zero.mp (Nat.le_zero.mp hl)
    subst this
    rfl
  | succ n ih =>
    intro l hl hfree
    cases l with
    | nil => rfl
    | cons c rest =>
      simp only [List.length_cons, Nat.succ_le_succ_iff] at hl
      have hsplit : (c :: rest.takeWhile isPySpace) ++ rest.dropWhile isPySpace =
          c :: rest := by
        rw [List.cons_append, List.takeWhile_append_dropWhile]
      rw [collapseNL_cons]
      by_cases hc : isPySpace c
      · rw [if_pos hc]
        have hrun : rewriteNLRun (c :: rest.takeWhile isPySpace) =
            c :: rest.takeWhile isPySpace := by
          unfold rewriteNLRun
          split
          · rename_i h3
            exfalso
            apply hfree
            refine tripleNL_of_inf
              (tripleNL_of_count _ (run_all_ws c rest hc) h3) ?_
            exact pre_inf ⟨rest.dropWhile isPySpace, hsplit⟩
          · rfl
        have hrest2 : collapseNL (rest.dropWhile isPySpace) =
            rest.dropWhile isPySpace := by
          apply ih _ (le_trans (List.dropWhile_sublist _).length_le hl)
          intro ht
          apply hfree
          refine tripleNL_of_inf ht ⟨c :: rest.takeWhile isPySpace, [], ?_⟩
          rw [List.append_nil, hsplit]
        rw [hrun, hrest2, hsplit]
      · rw [if_neg hc]
        have : collapseNL rest = rest := by
          apply ih rest hl
          intro ht
          exact hfree (tripleNL_of_inf ht (inf_cons _ (inf_refl rest)))
        rw [this]

theorem chain'_rewriteNLRun (R : Char → Char → Prop)
    (hx : ∀ x, R x '\n') (hy : ∀ y, R '\n' y) (run : Text)
    (h : List.Chain' R run) : List.Chain' R (rewriteNLRun run) := by
  unfold rewriteNLRun
  split
  · rw [List.chain'_append]
    refine ⟨chain'_of_pre R ⟨run.dropWhile (fun c => c ≠ '\n'),
      List.takeWhile_append_dropWhile _ run⟩ h, ?_, ?_⟩
    · rw [List.chain'_cons']
      refine ⟨fun y _ => hy y, ?_⟩
      rw [List.chain'_cons']
      refine ⟨fun y _ => hy y, ?_⟩
      refine h.suffix ?_
      rw [← List.reverse_prefix, List.reverse_reverse]
      exact List.takeWhile_prefix _
    · intro x _ y hyy
      simp only [List.head?_cons, Option.mem_def, Option.some.injEq] at hyy
      subst hyy
      exact hx x
  · exact h

theorem getLast?_rewriteNLRun (run : Text) (x : Char)
    (hx : (rewriteNLRun run).getLast? = some x) :
    x = '\n' ∨ run.getLast? = some x := by
  unfold rewriteNLRun at hx
  split at hx
  · cases hp : (run.reverse.takeWhile (fun c => c ≠ '\n')).reverse with
    | nil =>
      rw [hp] at hx
      rw [List.getLast?_append_of_ne_nil _ (by simp)] at hx
      simp at hx
      exact Or.inl hx.symm
    | cons p ps =>
      rw [hp] at hx
      rw [List.getLast?_append_of_ne_nil _ (by simp)] at hx
      rw [show ('\n' :: '\n' :: p :: ps : Text) = ['\n', '\n'] ++ p :: ps from rfl,
        List.getLast?_append_of_ne_nil _ (by simp)] at hx
      have hsfx : (p :: ps) <:+ run := by
        rw [← hp]
        rw [← List.reverse_prefix, List.reverse_reverse]
        exact List.takeWhile_prefix _
      rw [getLast?_suffix hsfx (by simp)]
      exact Or.inr hx
  · exact Or.inr hx

theorem collapseNL_transfer (R : Char → Char → Prop)
    (hx : ∀ x, R x '\n') (hy : ∀ y, R '\n' y) (l : Text)
    (h : List.Chain' R l) : List.Chain' R (collapseNL l) := by
  revert h
  suffices hgen : ∀ (n : Nat) (l : Text), l.length ≤ n → List.Chain' R l →
      List.Chain' R (collapseNL l) from hgen l.length l le_rfl
  intro n
  induction n with
  | zero => intro l _ _; cases l with
    | nil => exact List.chain'_nil
    | cons c rest => simp at *
  | succ n ih =>
    intro l hl hch
    cases l with
    | nil => exact List.chain'_nil
    | cons c rest =>
      simp only [List.length_cons, Nat.succ_le_succ_iff] at hl
      have hsplit : (c :: rest.takeWhile isPySpace) ++ rest.dropWhile isPySpace =
          c :: rest := by
        rw [List.cons_append, List.takeWhile_append_dropWhile]
      rw [collapseNL_cons]
      by_cases hc : isPySpace c
      · rw [if_pos hc]
        have hch2 := hch
        rw [← hsplit, List.chain'_append] at hch2
        obtain ⟨hrun, hrest2, hseam⟩ := hch2
        rw [List.chain'_append]
        refine ⟨chain'_rewriteNLRun R hx hy _ hrun,
          ih _ (le_trans (List.dropWhile_sublist _).length_le hl) hrest2, ?_⟩
        intro x hxl y hyh
        rw [collapseNL_head?] at hyh
        rcases getLast?_rewriteNLRun _ x hxl with h1 | h1
        · subst h1; exact hy y
        · exact hseam x h1 y hyh
      · rw [if_neg hc]
        obtain ⟨hc0, hcr⟩ := List.chain'_cons'.mp hch
        refine List.chain'_cons'.mpr ⟨?_, ih rest hl hcr⟩
        intro y hyh
        rw [collapseNL_head?] at hyh
        exact hc0 y hyh

/-! ### Properties of rstripLines -/

theorem pyRstrip_idem (m : Text) : pyRstrip (pyRstrip m) = pyRstrip m := by
  unfold pyRstrip
  rw [List.reverse_reverse, dropWhile_idem]

theorem pyRstrip_eq_self_of_getLast {m : Text}
    (h : ∀ y ∈ m.getLast?, isPySpace y = false) : pyRstrip m = m := by
  unfold pyRstrip
  cases hr : m.reverse with
  | nil =>
    have : m = [] := by
      have := congrArg List.reverse hr
      simpa using this
    subst this
    rfl
  | cons a t =>
    have ha : isPySpace a = false := by
      apply h
      rw [← List.head?_reverse, hr]
      rfl
    rw [List.dropWhile_cons_of_neg (by simp [ha])]
    have := congrArg List.reverse hr
    simpa using this.symm

theorem getLast_not_ws_of_rstripped {m : Text} (h : pyRstrip m = m) :
    ∀ y ∈ m.getLast?, isPySpace y = false := by
  intro y hy
  by_contra hws
  simp only [Bool.not_eq_false] at hws
  cases hr : m.reverse with
  | nil =>
    have : m = [] := by simpa using congrArg List.reverse hr
    subst this
    simp at hy
  | cons a t =>
    have hay : a = y := by
      rw [← List.head?_reverse, hr] at hy
      simpa using hy
    subst hay
    have hlen := congrArg List.length h
    unfold pyRstrip at hlen
    rw [hr, List.dropWhile_cons_of_pos (by simp [hws])] at hlen
    have h1 : (List.dropWhile isPySpace t).length ≤ t.length :=
      (List.dropWhile_sublist _).length_le
    have h2 : m.length = t.length + 1 := by
      have := congrArg List.length hr
      simpa using this
    simp only [List.length_reverse] at hlen
    omega

theorem pyRstrip_getLast?_not_ws (m : Text) :
    ∀ y ∈ (pyRstrip m).getLast?, isPySpace y = false :=
  getLast_not_ws_of_rstripped (pyRstrip_idem m)

theorem rl_splitOnNL (l : Text) :
    splitOnNL (rstripLines l) = (splitOnNL l).map pyRstrip := by
  unfold rstripLines
  apply splitOnNL_intercalate
  · simp [splitOnNL_ne_nil l]
  · intro x hx
    obtain ⟨p, hp, hpx⟩ := List.mem_map.mp hx
    intro hmem
    exact nl_not_mem_splitOnNL l p hp
      (pre_subset (by rw [← hpx]; exact pyRstrip_pre p) _ hmem)

theorem wsdel_ws_nil {s : Text} (hs : ∀ c ∈ s, isPySpace c = true) :
    WsDel s [] := by
  have := wsdel_drop_pre hs (WsDel.nil)
  simpa using this

theorem wsdel_pyRstrip (m : Text) : WsDel m (pyRstrip m) := by
  have hsplit : m = pyRstrip m ++ (m.reverse.takeWhile isPySpace).reverse := by
    unfold pyRstrip
    rw [← List.reverse_append, ← List.takeWhile_append_dropWhile isPySpace m.reverse]
    simp
  conv_lhs => rw [hsplit]
  have : WsDel ((m.reverse.takeWhile isPySpace).reverse) [] := by
    apply wsdel_ws_nil
    intro c hc
    exact List.mem_takeWhile_imp (by simpa using hc)
  have h2 := wsdel_append (wsdel_refl (pyRstrip m)) this
  simpa using h2

theorem rl_wsdel (l : Text) : WsDel l (rstripLines l) := by
  have hjoin := intercalate_splitOnNL l
  conv_lhs => rw [← hjoin]
  unfold rstripLines
  generalize splitOnNL l = xs
  induction xs with
  | nil => exact WsDel.nil
  | cons x t ih =>
    cases t with
    | nil =>
      rw [intercalate_singleton, List.map_cons, List.map_nil, intercalate_singleton]
      exact wsdel_pyRstrip x
    | cons y t2 =>
      rw [intercalate_cons_cons, List.map_cons, List.map_cons, intercalate_cons_cons]
      rw [← List.map_cons pyRstrip y t2]
      exact wsdel_append (wsdel_append (wsdel_pyRstrip x) (wsdel_refl ['\n'])) ih

theorem chain'_of_nl_free (R : Char → Char → Prop)
    (hR : ∀ a b, b ≠ '\n' → R a b) (x : Text) (hx : '\n' ∉ x) :
    List.Chain' R x := by
  induction x with
  | nil => exact List.chain'_nil
  | cons a as ih =>
    simp only [List.mem_cons, not_or] at hx
    refine List.chain'_cons'.mpr ⟨?_, ih hx.2⟩
    intro y hy
    refine hR a y ?_
    intro hyn
    subst hyn
    exact hx.2 (List.mem_of_mem_head? hy)

theorem rl_chain (l : Text) :
    List.Chain' (fun a b => b = '\n' → (isPySpace a = false ∨ a = '\n'))
      (rstripLines l) := by
  unfold rstripLines
  apply chain'_intercalate_nl
  · intro x hx
    obtain ⟨p, hp, rfl⟩ := List.mem_map.mp hx
    refine chain'_of_nl_free _ (fun a b hb => fun hbn => absurd hbn hb) _ ?_
    intro hmem
    exact nl_not_mem_splitOnNL l p hp (pre_subset (pyRstrip_pre p) _ hmem)
  · intro x hx y hy _
    obtain ⟨p, hp, rfl⟩ := List.mem_map.mp hx
    exact Or.inl (pyRstrip_getLast?_not_ws p y hy)
  · intro x hx y hy hyn
    exact Or.inr rfl
  · intro _
    exact Or.inr rfl

theorem rl_transfer (R : Char → Char → Prop)
    (hx : ∀ x, R x '\n') (hy : ∀ y, R '\n' y) (l : Text)
    (h : List.Chain' R l) : List.Chain' R (rstripLines l) := by
  unfold rstripLines
  apply chain'_intercalate_nl
  · intro x hmx
    obtain ⟨p, hp, rfl⟩ := List.mem_map.mp hmx
    exact chain'_of_pre R (pyRstrip_pre p)
      (chain'_of_inf R (splitOnNL_piece_inf l p hp) h)
  · intro x _ y _
    exact hx y
  · intro x _ y _
    exact hy y
  · exact hx '\n'

theorem rl_bridge (l : Text)
    (hch : List.Chain' (fun a b => b = '\n' → (isPySpace a = false ∨ a = '\n')) l)
    (hlast : ∀ y ∈ l.getLast?, isPySpace y = false) :
    ∀ p ∈ splitOnNL l, pyRstrip p = p := by
  induction l with
  | nil =>
    intro p hp
    simp only [splitOnNL, List.mem_singleton] at hp
    subst hp
    rfl
  | cons c rest ih =>
    intro p hp
    simp only [splitOnNL] at hp
    by_cases hc : c = '\n'
    · rw [if_pos hc] at hp
      have hrest : ∀ q ∈ splitOnNL rest, pyRstrip q = q := by
        apply ih hch.tail
        cases rest with
        | nil =>
          subst hc
          have := hlast '\n' (by simp)
          simp [isPySpace] at this
        | cons d rs =>
          intro y hy
          apply hlast
          rwa [List.getLast?_cons_cons]
      rcases List.mem_cons.mp hp with h | h
      · subst h; rfl
      · exact hrest p h
    · rw [if_neg hc] at hp
      cases hs : splitOnNL rest with
      | nil => exact absurd hs (splitOnNL_ne_nil rest)
      | cons p0 ps =>
        rw [hs] at hp
        have hrest : rest ≠ [] → ∀ q ∈ splitOnNL rest, pyRstrip q = q := by
          intro hne
          apply ih hch.tail
          cases rest with
          | nil => exact absurd rfl hne
          | cons d rs =>
            intro y hy
            apply hlast
            rwa [List.getLast?_cons_cons]
        rcases List.mem_cons.mp hp with h | h
        · subst h
          apply pyRstrip_eq_self_of_getLast
          cases hrest0 : rest with
          | nil =>
            rw [hrest0] at hs
            simp only [splitOnNL] at hs
            obtain ⟨hp0, _⟩ := List.cons.injEq .. |>.mp hs
            subst hp0
            intro y hy
            apply hlast
            subst hrest0
            simpa using hy
          | cons d rs =>
            cases hp0 : p0 with
            | nil =>
              intro y hy
              simp only [List.getLast?_singleton, Option.mem_def,
                Option.some.injEq] at hy
              subst hy
              have hd : d = '\n' := by
                by_contra hd
                rw [hrest0] at hs
                simp only [splitOnNL, if_neg hd] at hs
                cases h2 : splitOnNL rs with
                | nil => exact absurd h2 (splitOnNL_ne_nil rs)
                | cons a t =>
                  rw [h2] at hs
                  obtain ⟨h3, _⟩ := List.cons.injEq .. |>.mp hs
                  rw [hp0] at h3
                  simp at h3
              obtain ⟨hc0, _⟩ := List.chain'_cons'.mp hch
              have := hc0 d (by rw [hrest0]; rfl) -- R y d with d = '\n'
              rw [hd] at this
              rcases this rfl with h4 | h4
              · exact h4
              · exact absurd h4 hc
            | cons e p0' =>
              -- last of (y :: p0) = last of p0 = last of first piece of rest
              have hfirst : pyRstrip p0 = p0 := by
                apply hrest (by rw [hrest0]; simp) p0
                rw [hs]
                simp
              have hlast0 := getLast_not_ws_of_rstripped hfirst
              intro y hy
              apply hlast0
              rw [hp0]
              rwa [List.getLast?_cons_cons] at hy
        · exact hrest
            (by
              intro habs
              rw [habs] at hs
              simp only [splitOnNL] at hs
              obtain ⟨_, hps⟩ := List.cons.injEq .. |>.mp hs
              rw [← hps] at h
              simp at h) p (by rw [hs]; simp [h])

theorem rl_id (l : Text)
    (hch : List.Chain' (fun a b => b = '\n' → (isPySpace a = false ∨ a = '\n')) l)
    (hlast : ∀ y ∈ l.getLast?, isPySpace y = false) :
    rstripLines l = l := by
  unfold rstripLines
  rw [List.map_congr_left (fun p hp => rl_bridge l hch hlast p hp)]
  simp only [List.map_id, List.map_id_fun, List.map_id']
  exact intercalate_splitOnNL l

/-! ### Properties of pyStrip and the clean_whitespace fixpoint -/

theorem pyStrip_inf (l : Text) : pyStrip l <:+: l := by
  obtain ⟨t, ht⟩ := pyRstrip_pre (l.dropWhile isPySpace)
  obtain ⟨s, hs⟩ :=
    (List.dropWhile_suffix isPySpace :
      List.dropWhile isPySpace l <:+ l)
  have h2 : pyStrip l ++ t = l.dropWhile isPySpace := ht
  exact ⟨s, t, by rw [List.append_assoc, h2, hs]⟩

theorem pyStrip_getLast?_not_ws (l : Text) :
    ∀ y ∈ (pyStrip l).getLast?, isPySpace y = false :=
  pyRstrip_getLast?_not_ws _

theorem wsdel_trans {a b c : Text} (hab : WsDel a b) (hbc : WsDel b c) :
    WsDel a c := by
  induction hab generalizing c with
  | nil =>
    cases hbc
    exact WsDel.nil
  | keep d hd ih =>
    cases hbc with
    | keep _ h2 => exact WsDel.keep d (ih h2)
    | drop _ hws h2 => exact WsDel.drop d hws (ih h2)
  | drop d hws hd ih => exact WsDel.drop d hws (ih hbc)

theorem wsdel_dropWhile (l : Text) : WsDel l (l.dropWhile isPySpace) := by
  conv_lhs => rw [← List.takeWhile_append_dropWhile isPySpace l]
  exact wsdel_drop_pre (fun c hc => List.mem_takeWhile_imp hc) (wsdel_refl _)

theorem wsdel_pyStrip (l : Text) : WsDel l (pyStrip l) :=
  wsdel_trans (wsdel_dropWhile l) (wsdel_pyRstrip _)

/-- The joint invariant of clean_whitespace output: no double spaces, no
three-newline whitespace pattern, no line-trailing whitespace, no leading or
trailing whitespace.  Exactly the strings on which each of the four passes
is the identity. -/
def CwClean (l : Text) : Prop :=
  NoDoubleSpace l ∧ ¬ TripleNL l ∧
  List.Chain' (fun a b => b = '\n' → (isPySpace a = false ∨ a = '\n')) l ∧
  (∀ y ∈ l.getLast?, isPySpace y = false) ∧
  pyStrip l = l

theorem cw_clean (x : Text) : CwClean (clean_whitespace x) := by
  unfold clean_whitespace
  refine ⟨?_, ?_, ?_, ?_, ?_⟩
  · refine chain'_of_inf _ (pyStrip_inf _) ?_
    apply rl_transfer _ (by simp) (by simp)
    apply collapseNL_transfer _ (by simp) (by simp)
    exact collapseSpaces_noDS _
  · intro ht
    have h2 := tripleNL_wsdel (rl_wsdel (collapseNL (collapseSpaces x)))
      (tripleNL_of_inf ht (pyStrip_inf _))
    exact collapseNL_tripleFree _ h2
  · exact chain'_of_inf _ (pyStrip_inf _) (rl_chain _)
  · exact pyStrip_getLast?_not_ws _
  · exact pyStrip_idem _

theorem cw_id (l : Text) (h : CwClean l) : clean_whitespace l = l := by
  obtain ⟨h1, h2, h3, h4, h5⟩ := h
  unfold clean_whitespace
  rw [collapseSpaces_id _ h1, collapseNL_id _ h2, rl_id _ h3 h4, h5]

theorem cw_wsdel (l : Text) : WsDel l (clean_whitespace l) := by
  unfold clean_whitespace
  exact wsdel_trans (collapseSpaces_wsdel l)
    (wsdel_trans (collapseNL_wsdel _)
      (wsdel_trans (rl_wsdel _) (wsdel_pyStrip _)))

theorem cw_transfer (R : Char → Char → Prop)
    (hsp1 : ∀ x, R x ' ') (hsp2 : ∀ y, R ' ' y)
    (hnl1 : ∀ x, R x '\n') (hnl2 : ∀ y, R '\n' y)
    (l : Text) (h : List.Chain' R l) :
    List.Chain' R (clean_whitespace l) := by
  unfold clean_whitespace
  refine chain'_of_inf _ (pyStrip_inf _) ?_
  apply rl_transfer _ hnl1 hnl2
  apply collapseNL_transfer _ hnl1 hnl2
  exact collapseSpaces_transfer _ hsp1 hsp2 _ h

theorem cw_idem (x : Text) :
    clean_whitespace (clean_whitespace x) = clean_whitespace x :=
  cw_id _ (cw_clean x)

/-! ### Properties of the restricted NFKC model -/

/-- The seven PDF ligature code points. -/
def isLig (c : Char) : Bool :=
  c = 'ﬀ' || c = 'ﬁ' || c = 'ﬂ' || c = 'ﬃ' || c = 'ﬄ' || c = 'ﬅ' || c = 'ﬆ'

theorem reorderInsert_eq_cons (c : Char) (l : Text) : reorderInsert c l = c :: l := by
  cases l with
  | nil => rfl
  | cons d ds =>
    unfold reorderInsert
    rw [if_neg]
    by_cases hc : c = '́' <;> by_cases hd : d = '́' <;> simp [ccc, hc, hd]

theorem canonicalReorder_eq_id (l : Text) : canonicalReorder l = l := by
  induction l with
  | nil => rfl
  | cons c rest ih =>
    unfold canonicalReorder
    rw [ih, reorderInsert_eq_cons]

theorem composePair_eq_some {a b c : Char} (h : composePair a b = some c) :
    a = 'e' ∧ b = '́' ∧ c = 'é' := by
  unfold composePair at h
  split at h
  · rename_i hab
    simp only [Option.some.injEq] at h
    simp only [Bool.and_eq_true, decide_eq_true_eq] at hab
    exact ⟨hab.1, hab.2, h.symm⟩
  · cases h

theorem composePair_none_fst {a b : Char} (h : a ≠ 'e') :
    composePair a b = none := by
  unfold composePair
  rw [if_neg]
  simp [h]

theorem composePair_none_snd {a b : Char} (h : b ≠ '́') :
    composePair a b = none := by
  unfold composePair
  rw [if_neg]
  simp [h]

theorem composeRun_head? (l : Text) (y : Char)
    (h : (composeRun l).head? = some y) : l.head? = some y ∨ y = 'é' := by
  revert h
  suffices hgen : ∀ (n : Nat) (l : Text), l.length ≤ n → ∀ y,
      (composeRun l).head? = some y → l.head? = some y ∨ y = 'é' from
    fun h => hgen l.length l le_rfl y h
  intro n
  induction n with
  | zero =>
    intro l hl y h
    have : l = [] := List.length_eq_zero.mp (Nat.le_zero.mp hl)
    subst this
    simp [composeRun_nil] at h
  | succ n ih =>
    intro l hl y h
    match l with
    | [] => simp [composeRun_nil] at h
    | [c] =>
      rw [composeRun_singleton] at h
      exact Or.inl h
    | a :: b :: rest =>
      simp only [List.length_cons, Nat.succ_le_succ_iff] at hl
      cases hcp : composePair a b with
      | some c =>
        rw [composeRun_eq_some a b c rest hcp] at h
        obtain ⟨_, _, hc⟩ := composePair_eq_some hcp
        rcases ih (c :: rest) (by simpa using hl) y h with h1 | h1
        · simp only [List.head?_cons, Option.some.injEq] at h1
          exact Or.inr (by rw [← h1, hc])
        · exact Or.inr h1
      | none =>
        rw [composeRun_eq_none a b rest hcp] at h
        simp only [List.head?_cons, Option.some.injEq] at h ⊢
        exact Or.inl h

theorem composeRun_mem (l : Text) (x : Char) (h : x ∈ composeRun l) :
    x ∈ l ∨ x = 'é' := by
  revert h
  suffices hgen : ∀ (n : Nat) (l : Text), l.length ≤ n → ∀ x,
      x ∈ composeRun l → x ∈ l ∨ x = 'é' from
    fun h => hgen l.length l le_rfl x h
  intro n
  induction n with
  | zero =>
    intro l hl x h
    have : l = [] := List.length_eq_zero.mp (Nat.le_zero.mp hl)
    subst this
    simp [composeRun_nil] at h
  | succ n ih =>
    intro l hl x h
    match l with
    | [] => simp [composeRun_nil] at h
    | [c] =>
      rw [composeRun_singleton] at h
      exact Or.inl h
    | a :: b :: rest =>
      simp only [List.length_cons, Nat.succ_le_succ_iff] at hl
      cases hcp : composePair a b with
      | some c =>
        rw [composeRun_eq_some a b c rest hcp] at h
        obtain ⟨_, _, hc⟩ := composePair_eq_some hcp
        rcases ih (c :: rest) (by simpa using hl) x h with h1 | h1
        · rcases List.mem_cons.mp h1 with h2 | h2
          · exact Or.inr (by rw [h2, hc])
          · exact Or.inl (by simp [h2])
        · exact Or.inr h1
      | none =>
        rw [composeRun_eq_none a b rest hcp] at h
        rcases List.mem_cons.mp h with h1 | h1
        · exact Or.inl (by simp [h1])
        · rcases ih (b :: rest) (by simpa using hl) x h1 with h2 | h2
          · exact Or.inl (by simp [List.mem_cons.mp h2])
          · exact Or.inr h2

theorem composeRun_noPair (l : Text) :
    List.Chain' (fun a b => ¬(a = 'e' ∧ b = '́')) (composeRun l) := by
  suffices hgen : ∀ (n : Nat) (l : Text), l.length ≤ n →
      List.Chain' (fun a b => ¬(a = 'e' ∧ b = '́')) (composeRun l) from
    hgen l.length l le_rfl
  intro n
  induction n with
  | zero =>
    intro l hl
    have : l = [] := List.length_eq_zero.mp (Nat.le_zero.mp hl)
    subst this
    exact List.chain'_nil
  | succ n ih =>
    intro l hl
    match l with
    | [] => exact List.chain'_nil
    | [c] => rw [composeRun_singleton]; simp
    | a :: b :: rest =>
      simp only [List.length_cons, Nat.succ_le_succ_iff] at hl
      cases hcp : composePair a b with
      | some c =>
        rw [composeRun_eq_some a b c rest hcp]
        exact ih (c :: rest) (by simpa using hl)
      | none =>
        rw [composeRun_eq_none a b rest hcp]
        refine List.chain'_cons'.mpr ⟨?_, ih (b :: rest) (by simpa using hl)⟩
        intro y hy hpair
        obtain ⟨ha, hy'⟩ := hpair
        subst ha hy'
        rcases composeRun_head? (b :: rest) '́' hy with h1 | h1
        · simp only [List.head?_cons, Option.some.injEq] at h1
          subst h1
          unfold composePair at hcp
          rw [if_pos (by decide)] at hcp
          cases hcp
        · cases h1

theorem composeRun_cons_of_none (c : Char) (rest : Text)
    (h : ∀ y ∈ rest.head?, composePair c y = none) :
    composeRun (c :: rest) = c :: composeRun rest := by
  cases rest with
  | nil => rfl
  | cons b r =>
    rw [composeRun_eq_none c b r (h b rfl)]

theorem nfkcDecomposeChar_no_lig (c : Char) :
    ∀ x ∈ nfkcDecomposeChar c, isLig x = false := by
  intro x hx
  unfold nfkcDecomposeChar at hx
  split at hx
  · simp only [List.mem_cons, List.not_mem_nil, or_false] at hx
    rcases hx with rfl | rfl <;> decide
  · split at hx
    · simp only [List.mem_cons, List.not_mem_nil, or_false] at hx
      rcases hx with rfl | rfl <;> decide
    · split at hx
      · simp only [List.mem_cons, List.not_mem_nil, or_false] at hx
        rcases hx with rfl | rfl <;> decide
      · split at hx
        · simp only [List.mem_cons, List.not_mem_nil, or_false] at hx
          rcases hx with rfl | rfl | rfl <;> decide
        · split at hx
          · simp only [List.mem_cons, List.not_mem_nil, or_false] at hx
            rcases hx with rfl | rfl | rfl <;> decide
          · split at hx
            · simp only [List.mem_cons, List.not_mem_nil, or_false] at hx
              rcases hx with rfl | rfl <;> decide
            · split at hx
              · simp only [List.mem_cons, List.not_mem_nil, or_false] at hx
                rcases hx with rfl | rfl <;> decide
              · split at hx
                · simp only [List.mem_cons, List.not_mem_nil, or_false] at hx
                  rcases hx with rfl | rfl <;> decide
                · rename_i h1 h2 h3 h4 h5 h6 h7 h8
                  simp only [List.mem_singleton] at hx
                  subst hx
                  simp only [isLig, Bool.or_eq_false_iff,
                    decide_eq_false_iff_not]
                  exact ⟨⟨⟨⟨⟨⟨h1, h2⟩, h3⟩, h4⟩, h5⟩, h6⟩, h7⟩

theorem nfkcDecomposeChar_ne_nil (c : Char) : nfkcDecomposeChar c ≠ [] := by
  unfold nfkcDecomposeChar
  repeat' split
  all_goals simp

theorem nfkcDecomposeChar_head_ne_mark (c : Char) (hc : c ≠ '́') :
    ∀ y ∈ (nfkcDecomposeChar c).head?, y ≠ '́' := by
  intro y hy
  unfold nfkcDecomposeChar at hy
  split at hy
  · simp at hy; subst hy; decide
  · split at hy
    · simp at hy; subst hy; decide
    · split at hy
      · simp at hy; subst hy; decide
      · split at hy
        · simp at hy; subst hy; decide
        · split at hy
          · simp at hy; subst hy; decide
          · split at hy
            · simp at hy; subst hy; decide
            · split at hy
              · simp at hy; subst hy; decide
              · split at hy
                · simp at hy; subst hy; decide
                · simp at hy; subst hy; exact hc

theorem nfkcDecomposeChar_inert (c : Char) (h1 : isLig c = false)
    (h2 : c ≠ 'é') : nfkcDecomposeChar c = [c] := by
  simp only [isLig, Bool.or_eq_false_iff, decide_eq_false_iff_not] at h1
  obtain ⟨⟨⟨⟨⟨⟨ha, hb⟩, hc⟩, hd⟩, he⟩, hf⟩, hg⟩ := h1
  unfold nfkcDecomposeChar
  rw [if_neg ha, if_neg hb, if_neg hc, if_neg hd, if_neg he, if_neg hf,
    if_neg hg, if_neg h2]

/-- The fixpoints of the restricted NFKC model: no ligature code point and no
decomposed e-plus-acute pair (the composed form is allowed). -/
def NfkcNormalized (l : Text) : Prop :=
  (∀ x ∈ l, isLig x = false) ∧
  List.Chain' (fun a b => ¬(a = 'e' ∧ b = '́')) l

theorem nfkc_normalized (l : Text) : NfkcNormalized (normalize_unicode l) := by
  unfold normalize_unicode
  rw [canonicalReorder_eq_id]
  constructor
  · intro x hx
    rcases composeRun_mem _ x hx with h | h
    · obtain ⟨c, _, hc⟩ := List.mem_flatMap.mp h
      exact nfkcDecomposeChar_no_lig c x hc
    · subst h; decide
  · exact composeRun_noPair _

theorem nfkc_id (l : Text) (h : NfkcNormalized l) : normalize_unicode l = l := by
  unfold normalize_unicode
  rw [canonicalReorder_eq_id]
  obtain ⟨hlig, hpair⟩ := h
  induction l with
  | nil => rfl
  | cons c r ih =>
    have hihr : composeRun (r.flatMap nfkcDecomposeChar) = r :=
      ih (fun x hx => hlig x (by simp [hx])) hpair.tail
    rw [List.flatMap_cons]
    by_cases hce : c = 'é'
    · subst hce
      rw [show nfkcDecomposeChar 'é' = ['e', '́'] from rfl]
      rw [show (['e', '́'] : Text) ++ r.flatMap nfkcDecomposeChar =
        'e' :: '́' :: r.flatMap nfkcDecomposeChar from rfl]
      rw [composeRun_eq_some 'e' '́' 'é' _ (by decide)]
      rw [composeRun_cons_of_none 'é' _ (fun y _ => composePair_none_fst (by decide))]
      rw [hihr]
    · by_cases hcee : c = 'e'
      · subst hcee
        rw [show nfkcDecomposeChar 'e' = ['e'] from rfl]
        rw [show (['e'] : Text) ++ r.flatMap nfkcDecomposeChar =
          'e' :: r.flatMap nfkcDecomposeChar from rfl]
        rw [composeRun_cons_of_none 'e' _ ?_, hihr]
        intro y hy
        apply composePair_none_snd
        cases r with
        | nil => simp at hy
        | cons d r2 =>
          rw [List.flatMap_cons] at hy
          rw [List.head?_append_of_ne_nil _ (nfkcDecomposeChar_ne_nil d)] at hy
          have hd : d ≠ '́' := by
            intro hd
            subst hd
            exact (List.chain'_cons'.mp hpair).1 '́' rfl ⟨rfl, rfl⟩
          exact nfkcDecomposeChar_head_ne_mark d hd y hy
      · rw [nfkcDecomposeChar_inert c (hlig c (by simp)) hce]
        rw [show ([c] : Text) ++ r.flatMap nfkcDecomposeChar =
          c :: r.flatMap nfkcDecomposeChar from rfl]
        rw [composeRun_cons_of_none c _ (fun y _ => composePair_none_fst hcee), hihr]

/-! ### Properties of the ligature replacement -/

theorem mem_replaceChar {x : Char} {l : Text} {c : Char} {r : Text}
    (h : x ∈ replaceChar l c r) : (x ∈ l ∧ x ≠ c) ∨ x ∈ r := by
  unfold replaceChar at h
  obtain ⟨a, ha, hx⟩ := List.mem_flatMap.mp h
  by_cases hac : a = c
  · rw [if_pos hac] at hx
    exact Or.inr hx
  · rw [if_neg hac] at hx
    simp only [List.mem_singleton] at hx
    subst hx
    exact Or.inl ⟨ha, hac⟩

theorem replaceChar_not_mem {l : Text} {c : Char} {r : Text} (h : c ∉ l) :
    replaceChar l c r = l := by
  unfold replaceChar
  induction l with
  | nil => rfl
  | cons a as ih =>
    simp only [List.mem_cons, not_or] at h
    rw [List.flatMap_cons, if_neg (fun hac => h.1 hac.symm), ih h.2,
      List.singleton_append]

theorem normalize_ligatures_no_lig (l : Text) :
    ∀ x ∈ normalize_ligatures l, isLig x = false := by
  intro x hx
  have h0 : normalize_ligatures l =
      replaceChar (replaceChar (replaceChar (replaceChar (replaceChar
        (replaceChar (replaceChar l 'ﬀ' ['f', 'f']) 'ﬁ' ['f', 'i'])
        'ﬂ' ['f', 'l']) 'ﬃ' ['f', 'f', 'i']) 'ﬄ' ['f', 'f', 'l'])
        'ﬅ' ['f', 't']) 'ﬆ' ['s', 't'] := rfl
  rw [h0] at hx
  rcases mem_replaceChar hx with ⟨hx, h7⟩ | hx
  swap
  · simp only [List.mem_cons, List.not_mem_nil, or_false] at hx
    rcases hx with rfl | rfl <;> decide
  rcases mem_replaceChar hx with ⟨hx, h6⟩ | hx
  swap
  · simp only [List.mem_cons, List.not_mem_nil, or_false] at hx
    rcases hx with rfl | rfl <;> decide
  rcases mem_replaceChar hx with ⟨hx, h5⟩ | hx
  swap
  · simp only [List.mem_cons, List.not_mem_nil, or_false] at hx
    rcases hx with rfl | rfl | rfl <;> decide
  rcases mem_replaceChar hx with ⟨hx, h4⟩ | hx
  swap
  · simp only [List.mem_cons, List.not_mem_nil, or_false] at hx
    rcases hx with rfl | rfl | rfl <;> decide
  rcases mem_replaceChar hx with ⟨hx, h3⟩ | hx
  swap
  · simp only [List.mem_cons, List.not_mem_nil, or_false] at hx
    rcases hx with rfl | rfl <;> decide
  rcases mem_replaceChar hx with ⟨hx, h2⟩ | hx
  swap
  · simp only [List.mem_cons, List.not_mem_nil, or_false] at hx
    rcases hx with rfl | rfl <;> decide
  rcases mem_replaceChar hx with ⟨hx, h1⟩ | hx
  swap
  · simp only [List.mem_cons, List.not_mem_nil, or_false] at hx
    rcases hx with rfl | rfl <;> decide
  simp only [isLig, Bool.or_eq_false_iff, decide_eq_false_iff_not]
  exact ⟨⟨⟨⟨⟨⟨h1, h2⟩, h3⟩, h4⟩, h5⟩, h6⟩, h7⟩

theorem normalize_ligatures_id (l : Text) (h : ∀ x ∈ l, isLig x = false) :
    normalize_ligatures l = l := by
  have hnm : ∀ (k : Char), isLig k = true → k ∉ l := by
    intro k hk hmem
    rw [h k hmem] at hk
    cases hk
  have h0 : normalize_ligatures l =
      replaceChar (replaceChar (replaceChar (replaceChar (replaceChar
        (replaceChar (replaceChar l 'ﬀ' ['f', 'f']) 'ﬁ' ['f', 'i'])
        'ﬂ' ['f', 'l']) 'ﬃ' ['f', 'f', 'i']) 'ﬄ' ['f', 'f', 'l'])
        'ﬅ' ['f', 't']) 'ﬆ' ['s', 't'] := rfl
  rw [h0, replaceChar_not_mem (hnm 'ﬀ' (by decide)),
    replaceChar_not_mem (hnm 'ﬁ' (by decide)),
    replaceChar_not_mem (hnm 'ﬂ' (by decide)),
    replaceChar_not_mem (hnm 'ﬃ' (by decide)),
    replaceChar_not_mem (hnm 'ﬄ' (by decide)),
    replaceChar_not_mem (hnm 'ﬅ' (by decide)),
    replaceChar_not_mem (hnm 'ﬆ' (by decide))]

theorem cw_no_lig (l : Text) (h : ∀ x ∈ l, isLig x = false) :
    ∀ x ∈ clean_whitespace l, isLig x = false :=
  fun x hx => h x ((wsdel_sublist (cw_wsdel l)).subset hx)

theorem cw_nfkc (l : Text) (h : NfkcNormalized l) :
    NfkcNormalized (clean_whitespace l) := by
  obtain ⟨h1, h2⟩ := h
  refine ⟨fun x hx => h1 x ((wsdel_sublist (cw_wsdel l)).subset hx), ?_⟩
  apply cw_transfer _ ?_ ?_ ?_ ?_ _ h2
  · intro x hp; exact absurd hp.2 (by decide)
  · intro y hp; exact absurd hp.1 (by decide)
  · intro x hp; exact absurd hp.2 (by decide)
  · intro y hp; exact absurd hp.1 (by decide)

/-- The normalize pipeline with soft_hyphens disabled (the three remaining
effective stages, since fix_common_ocr_errors is the identity). -/
def normSF (lg un ws : Bool) (t : Text) : Text :=
  let t1 := if lg then normalize_ligatures t else t
  let t2 := if un then normalize_unicode t1 else t1
  if ws then clean_whitespace t2 else t2

theorem normalize_eq_normSF (t : Text) (lg un ws oc : Bool) :
    normalize t lg un ws false oc = normSF lg un ws t := by
  unfold normalize normSF fix_common_ocr_errors
  cases oc <;> rfl

theorem normSF_ttt (t : Text) : normSF true true true t =
    clean_whitespace (normalize_unicode (normalize_ligatures t)) := by
  simp [normSF]

theorem normSF_ttf (t : Text) : normSF true true false t =
    normalize_unicode (normalize_ligatures t) := by
  simp [normSF]

theorem normSF_ftt (t : Text) : normSF false true true t =
    clean_whitespace (normalize_unicode t) := by
  simp [normSF]

theorem normSF_ftf (t : Text) : normSF false true false t =
    normalize_unicode t := by
  simp [normSF]

theorem normSF_tft (t : Text) : normSF true false true t =
    clean_whitespace (normalize_ligatures t) := by
  simp [normSF]

theorem normSF_tff (t : Text) : normSF true false false t =
    normalize_ligatures t := by
  simp [normSF]

theorem normSF_fft (t : Text) : normSF false false true t =
    clean_whitespace t := by
  simp [normSF]

theorem normSF_fff (t : Text) : normSF false false false t = t := by
  simp [normSF]

theorem normSF_nfkc (t : Text) (lg ws : Bool) :
    NfkcNormalized (normSF lg true ws t) := by
  cases lg <;> cases ws
  · rw [normSF_ftf]; exact nfkc_normalized _
  · rw [normSF_ftt]; exact cw_nfkc _ (nfkc_normalized _)
  · rw [normSF_ttf]; exact nfkc_normalized _
  · rw [normSF_ttt]; exact cw_nfkc _ (nfkc_normalized _)

theorem normSF_no_lig (t : Text) (lg un ws : Bool) (h : lg = true ∨ un = true) :
    ∀ c ∈ normSF lg un ws t, isLig c = false := by
  cases un with
  | true => exact (normSF_nfkc t lg ws).1
  | false =>
    have hlg : lg = true := by
      rcases h with h | h
      · exact h
      · cases h
    subst hlg
    cases ws with
    | true =>
      rw [normSF_tft]
      exact cw_no_lig _ (normalize_ligatures_no_lig t)
    | false =>
      rw [normSF_tff]
      exact normalize_ligatures_no_lig t

theorem normSF_idem (t : Text) (lg un ws : Bool) :
    normSF lg un ws (normSF lg un ws t) = normSF lg un ws t := by
  cases un with
  | true =>
    have hy := normSF_nfkc t lg ws
    cases lg with
    | true =>
      cases ws with
      | true =>
        conv_lhs => rw [normSF_ttt]
        rw [normalize_ligatures_id _ hy.1, nfkc_id _ hy, normSF_ttt]
        exact cw_idem _
      | false =>
        conv_lhs => rw [normSF_ttf]
        rw [normalize_ligatures_id _ hy.1]
        exact nfkc_id _ hy
    | false =>
      cases ws with
      | true =>
        conv_lhs => rw [normSF_ftt]
        rw [nfkc_id _ hy, normSF_ftt]
        exact cw_idem _
      | false =>
        conv_lhs => rw [normSF_ftf]
        exact nfkc_id _ hy
  | false =>
    cases lg with
    | true =>
      have hy := normSF_no_lig t true false ws (Or.inl rfl)
      cases ws with
      | true =>
        conv_lhs => rw [normSF_tft]
        rw [normalize_ligatures_id _ hy, normSF_tft]
        exact cw_idem _
      | false =>
        conv_lhs => rw [normSF_tff]
        exact normalize_ligatures_id _ hy
    | false =>
      cases ws with
      | true =>
        rw [normSF_fft, normSF_fft]
        exact cw_idem _
      | false =>
        rw [normSF_fff]

/-- **C2** (counterexample): TextNormalizer.normalize is NOT idempotent for
every option combination.  With the default options (soft_hyphens = True) the
input "-­\nx" normalizes to "-\nx" — remove_soft_hyphens deletes the run
after the soft hyphen, leaving a fresh "-\n" — and a second pass deletes that
too, yielding "x". -/
theorem normalize_not_idempotent :
    normalize (normalize ['-', '­', '\n', 'x'] true true true true false)
        true true true true false ≠
      normalize ['-', '­', '\n', 'x'] true true true true false := by
  decide

/-- **C2** (amended): normalize IS idempotent for every option combination with
soft_hyphens disabled: the ligature pass leaves no ligature code point, the
restricted-NFKC pass leaves text that is its own normal form, clean_whitespace
only deletes whitespace (preserving both properties) and is itself idempotent,
and fix_common_ocr_errors is the identity. -/
theorem normalize_idem_no_soft_hyphens (t : Text) (lg un ws oc : Bool) :
    normalize (normalize t lg un ws false oc) lg un ws false oc =
      normalize t lg un ws false oc := by
  rw [normalize_eq_normSF, normalize_eq_normSF, normSF_idem]

theorem takeWhile_append_all (q : Char → Bool) (u v : Text)
    (h : ∀ x ∈ u, q x = true) :
    (u ++ v).takeWhile q = u ++ v.takeWhile q := by
  induction u with
  | nil => simp
  | cons a u2 ih =>
    rw [List.cons_append, List.takeWhile_cons, if_pos (h a (List.mem_cons_self a u2)),
      ih (fun x hx => h x (List.mem_cons.mpr (Or.inr hx))), List.cons_append]

theorem takeWhile_pre_piece {y z : Text} (hy : '\n' ∉ y) :
    (y ++ '\n' :: z).takeWhile (fun c => c ≠ '\n') = y := by
  have h1 : ∀ x ∈ y, (fun c : Char => decide (c ≠ '\n')) x = true := by
    intro x hx
    simp only [decide_eq_true_eq]
    exact fun hh => hy (hh ▸ hx)
  rw [takeWhile_append_all _ y ('\n' :: z) h1, List.takeWhile_cons,
    if_neg (by simp), List.append_nil]

theorem takeWhile_ne_nl_all_ws (m w : Text)
    (hm : ∀ c ∈ m, isPySpace c = true) :
    ∀ c ∈ (m ++ '\n' :: w).takeWhile (fun c => c ≠ '\n'), isPySpace c = true := by
  intro c hc
  by_cases hnl : '\n' ∈ m
  · rw [takeWhile_append_stop _ m ('\n' :: w) ⟨'\n', hnl, by simp⟩] at hc
    exact hm c ((List.takeWhile_sublist _).subset hc)
  · have h1 : ∀ x ∈ m, (fun c : Char => decide (c ≠ '\n')) x = true := by
      intro x hx
      simp only [decide_eq_true_eq]
      exact fun hh => hnl (hh ▸ hx)
    rw [takeWhile_append_all _ m ('\n' :: w) h1, List.takeWhile_cons,
      if_neg (by simp), List.append_nil] at hc
    exact hm c hc

theorem tripleNL_intercalate_ws : ∀ (xs : List Text),
    (∀ x ∈ xs, '\n' ∉ x) →
    TripleNL (List.intercalate ['\n'] xs) →
    ∃ p ∈ xs, ∀ c ∈ p, isPySpace c = true := by
  intro xs
  induction xs with
  | nil =>
    intro _ h
    have h0 : List.intercalate ['\n'] ([] : List Text) = [] := rfl
    rw [h0] at h
    exact absurd h not_tripleNL_nil
  | cons x rest ih =>
    intro hnl h
    cases rest with
    | nil =>
      rw [intercalate_singleton] at h
      have h3 := tripleNL_count h
      have h0 : x.count '\n' = 0 := List.count_eq_zero.mpr (hnl x (by simp))
      omega
    | cons y t =>
      rw [intercalate_cons_cons] at h
      have hxa : x ++ ['\n'] ++ List.intercalate ['\n'] (y :: t) =
          x ++ '\n' :: List.intercalate ['\n'] (y :: t) := by
        simp
      rw [hxa] at h
      obtain ⟨u, m1, m2, v, heq, h1, h2⟩ := h
      have hJcase : (∃ a2, List.intercalate ['\n'] (y :: t) =
            a2 ++ '\n' :: (m1 ++ '\n' :: (m2 ++ '\n' :: v))) ∨
          List.intercalate ['\n'] (y :: t) = m1 ++ '\n' :: (m2 ++ '\n' :: v) := by
        rcases List.append_eq_append_iff.mp heq with ⟨a1, hu, hb⟩ | ⟨c1, hx2, hb⟩
        · cases a1 with
          | nil =>
            rw [List.nil_append] at hb
            injection hb with hd hb2
            exact Or.inr hb2
          | cons d a2 =>
            rw [List.cons_append] at hb
            injection hb with hd hb2
            exact Or.inl ⟨a2, hb2⟩
        · cases c1 with
          | nil =>
            rw [List.nil_append] at hb
            injection hb with hd hb2
            exact Or.inr hb2.symm
          | cons d c2 =>
            rw [List.cons_append] at hb
            injection hb with hd hb2
            exfalso
            apply hnl x (List.mem_cons_self x _)
            rw [hx2, ← hd]
            simp
      rcases hJcase with ⟨a2, hJ⟩ | hJ
      · have hT : TripleNL (List.intercalate ['\n'] (y :: t)) :=
          ⟨a2, m1, m2, v, hJ, h1, h2⟩
        obtain ⟨p, hp, hpw⟩ :=
          ih (fun z hz => hnl z (List.mem_cons.mpr (Or.inr hz))) hT
        exact ⟨p, List.mem_cons.mpr (Or.inr hp), hpw⟩
      · cases t with
        | nil =>
          rw [intercalate_singleton] at hJ
          have hmem : '\n' ∈ y := by rw [hJ]; simp
          exact absurd hmem (hnl y (by simp))
        | cons z t2 =>
          have hJ2 : List.intercalate ['\n'] (y :: z :: t2) =
              y ++ '\n' :: List.intercalate ['\n'] (z :: t2) := by
            rw [intercalate_cons_cons]
            simp
          have h4 : (y ++ '\n' :: List.intercalate ['\n'] (z :: t2)).takeWhile
              (fun c => c ≠ '\n') = y :=
            takeWhile_pre_piece (hnl y (by simp))
          have h5 := takeWhile_ne_nl_all_ws m1 (m2 ++ '\n' :: v) h1
          rw [← hJ2, hJ] at h4
          refine ⟨y, by simp, ?_⟩
          intro c hc
          rw [← h4] at hc
          exact h5 c hc

theorem pyStrip_ne_nil_iff (k : Text) :
    pyStrip k ≠ [] ↔ ∃ c ∈ k, isPySpace c = false := by
  unfold pyStrip pyRstrip
  constructor
  · intro h
    rw [Ne, List.reverse_eq_nil_iff, List.dropWhile_eq_nil_iff] at h
    push_neg at h
    obtain ⟨c, hc, hcw⟩ := h
    refine ⟨c, ?_, by simpa using hcw⟩
    have hcd : c ∈ k.dropWhile isPySpace := List.mem_reverse.mp hc
    exact (List.dropWhile_sublist _).subset hcd
  · rintro ⟨c, hc, hcw⟩
    intro h
    rw [List.reverse_eq_nil_iff, List.dropWhile_eq_nil_iff] at h
    have hcd : c ∈ k.dropWhile isPySpace := by
      have hsplit := List.takeWhile_append_dropWhile isPySpace k
      have hck : c ∈ k.takeWhile isPySpace ++ k.dropWhile isPySpace := by
        rw [hsplit]
        exact hc
      rcases List.mem_append.mp hck with h1 | h1
      · have h2 := List.mem_takeWhile_imp h1
        rw [h2] at hcw
        cases hcw
      · exact h1
    have h3 := h c (List.mem_reverse.mpr hcd)
    rw [h3] at hcw
    cases hcw

theorem mem_pyRstrip {c : Char} {z : Text} (hc : c ∈ z)
    (hw : isPySpace c = false) : c ∈ pyRstrip z := by
  unfold pyRstrip
  rw [List.mem_reverse]
  have hz : c ∈ z.reverse := List.mem_reverse.mpr hc
  have hsplit := List.takeWhile_append_dropWhile isPySpace z.reverse
  have hcz : c ∈ z.reverse.takeWhile isPySpace ++ z.reverse.dropWhile isPySpace := by
    rw [hsplit]
    exact hz
  rcases List.mem_append.mp hcz with h1 | h1
  · have h2 := List.mem_takeWhile_imp h1
    rw [h2] at hw
    cases hw
  · exact h1

theorem dropWhile_append_ex (A B : Text) (h : ∃ c ∈ A, isPySpace c = false) :
    (A ++ B).dropWhile isPySpace = A.dropWhile isPySpace ++ B := by
  induction A with
  | nil =>
    obtain ⟨c, hc, _⟩ := h
    exact absurd hc (List.not_mem_nil c)
  | cons a A2 ih =>
    rw [List.cons_append, List.dropWhile_cons, List.dropWhile_cons]
    by_cases ha : isPySpace a = true
    · rw [if_pos ha, if_pos ha]
      apply ih
      obtain ⟨c, hc, hcw⟩ := h
      rcases List.mem_cons.mp hc with h1 | h1
      · subst h1
        rw [ha] at hcw
        cases hcw
      · exact ⟨c, h1, hcw⟩
    · rw [if_neg ha, if_neg ha, List.cons_append]

theorem pyRstrip_append_ex (A B : Text) (h : ∃ c ∈ B, isPySpace c = false) :
    pyRstrip (A ++ B) = A ++ pyRstrip B := by
  have hB : ∃ c ∈ B.reverse, isPySpace c = false := by
    obtain ⟨c, hc, hcw⟩ := h
    exact ⟨c, List.mem_reverse.mpr hc, hcw⟩
  unfold pyRstrip
  rw [List.reverse_append, dropWhile_append_ex B.reverse A.reverse hB,
    List.reverse_append, List.reverse_reverse]

theorem suffix_intercalate (last : Text) : ∀ (xs : List Text),
    last <:+ List.intercalate ['\n'] (xs ++ [last]) := by
  intro xs
  induction xs with
  | nil =>
    rw [List.nil_append, intercalate_singleton]
  | cons x xs2 ih =>
    obtain ⟨y, t, hyt⟩ : ∃ y t, xs2 ++ [last] = y :: t := by
      cases xs2 with
      | nil => exact ⟨last, [], rfl⟩
      | cons a b => exact ⟨a, b ++ [last], rfl⟩
    rw [List.cons_append, hyt, intercalate_cons_cons, ← hyt]
    exact ih.trans (List.suffix_append _ _)

theorem rstrip_intercalate (last : Text) (hlast : ∃ c ∈ last, isPySpace c = false) :
    ∀ (xs : List Text),
    pyRstrip (List.intercalate ['\n'] (xs ++ [last])) =
      List.intercalate ['\n'] (xs ++ [pyRstrip last]) := by
  intro xs
  induction xs with
  | nil =>
    rw [List.nil_append, List.nil_append, intercalate_singleton,
      intercalate_singleton]
  | cons x xs2 ih =>
    obtain ⟨y, t, hyt⟩ : ∃ y t, xs2 ++ [last] = y :: t := by
      cases xs2 with
      | nil => exact ⟨last, [], rfl⟩
      | cons a b => exact ⟨a, b ++ [last], rfl⟩
    obtain ⟨y2, t2, hyt2⟩ : ∃ y2 t2, xs2 ++ [pyRstrip last] = y2 :: t2 := by
      cases xs2 with
      | nil => exact ⟨pyRstrip last, [], rfl⟩
      | cons a b => exact ⟨a, b ++ [pyRstrip last], rfl⟩
    have hmem : ∃ c ∈ List.intercalate ['\n'] (xs2 ++ [last]),
        isPySpace c = false := by
      obtain ⟨c, hc, hcw⟩ := hlast
      obtain ⟨pre, hpre⟩ := suffix_intercalate last xs2
      refine ⟨c, ?_, hcw⟩
      rw [← hpre]
      exact List.mem_append.mpr (Or.inr hc)
    rw [List.cons_append, hyt, intercalate_cons_cons, ← hyt,
      List.cons_append, hyt2, intercalate_cons_cons, ← hyt2,
      pyRstrip_append_ex (x ++ ['\n']) _ hmem, ih]

theorem dropfirst_intercalate (x0 : Text) (t : List Text)
    (h : ∃ c ∈ x0, isPySpace c = false) :
    (List.intercalate ['\n'] (x0 :: t)).dropWhile isPySpace =
      List.intercalate ['\n'] (x0.dropWhile isPySpace :: t) := by
  cases t with
  | nil =>
    rw [intercalate_singleton, intercalate_singleton]
  | cons y t2 =>
    rw [intercalate_cons_cons, intercalate_cons_cons, List.append_assoc,
      dropWhile_append_ex x0 _ h, ← List.append_assoc]

theorem pyStrip_dropWhile_eq (x : Text) :
    pyStrip (x.dropWhile isPySpace) = pyStrip x := by
  unfold pyStrip
  rw [dropWhile_idem]

/-- **C9**: TextFilter.filter_page never emits a blank line.  Blank input
lines are dropped by the filter before rejoining, so every line of the
joined text has non-empty stripped content; the blank-run collapse is then
the identity and the final strip cannot create a blank line.  The only
degenerate case is a fully filtered page, whose output is the empty string
(which has no lines): a blank line among the output's split('\n') lines
forces the whole output to be empty. -/
theorem filter_page_no_blank_line (pageText : Text) (R : Text → Bool)
    (rc : Bool) (l : Text)
    (hl : l ∈ splitOnNL (filter_page pageText R rc))
    (hblank : pyStrip l = []) :
    filter_page pageText R rc = [] := by
  obtain ⟨kept, hkeq, hfp⟩ : ∃ kept,
      kept = (splitOnNL pageText).filter (fun line =>
        !(pyStrip line).isEmpty && !R (pyStrip line) &&
          !(rc && is_copyright_line line) && !is_page_number line) ∧
      filter_page pageText R rc =
        pyStrip (collapseNL (List.intercalate ['\n'] kept)) :=
    ⟨_, rfl, rfl⟩
  have hknl : ∀ k ∈ kept, '\n' ∉ k := by
    intro k hk
    rw [hkeq] at hk
    exact nl_not_mem_splitOnNL pageText k (List.mem_filter.mp hk).1
  have hkst : ∀ k ∈ kept, pyStrip k ≠ [] := by
    intro k hk hnil
    rw [hkeq] at hk
    simp only [List.mem_filter] at hk
    have hpred := hk.2
    rw [hnil] at hpred
    simp at hpred
  have hnt : ¬ TripleNL (List.intercalate ['\n'] kept) := by
    intro h
    obtain ⟨p, hp, hpw⟩ := tripleNL_intercalate_ws kept hknl h
    have hdw : p.dropWhile isPySpace = [] := List.dropWhile_eq_nil_iff.mpr hpw
    exact hkst p hp (by unfold pyStrip; rw [hdw]; rfl)
  rw [collapseNL_id _ hnt] at hfp
  cases kept with
  | nil =>
    rw [hfp]
    rfl
  | cons x0 t =>
    exfalso
    rw [hfp] at hl
    have hx0 : ∃ c ∈ x0, isPySpace c = false :=
      (pyStrip_ne_nil_iff x0).mp (hkst x0 (List.mem_cons_self x0 t))
    have hstep1 : pyStrip (List.intercalate ['\n'] (x0 :: t)) =
        pyRstrip (List.intercalate ['\n'] (x0.dropWhile isPySpace :: t)) := by
      unfold pyStrip
      rw [dropfirst_intercalate x0 t hx0]
    rw [hstep1] at hl
    have hall : ∀ p ∈ x0.dropWhile isPySpace :: t, pyStrip p ≠ [] := by
      intro p hp
      rcases List.mem_cons.mp hp with h1 | h1
      · subst h1
        rw [pyStrip_dropWhile_eq]
        exact hkst x0 (List.mem_cons_self x0 t)
      · exact hkst p (List.mem_cons.mpr (Or.inr h1))
    have hallnl : ∀ p ∈ x0.dropWhile isPySpace :: t, '\n' ∉ p := by
      intro p hp
      rcases List.mem_cons.mp hp with h1 | h1
      · subst h1
        intro hmem
        exact hknl x0 (List.mem_cons_self x0 t)
          ((List.dropWhile_sublist _).subset hmem)
      · exact hknl p (List.mem_cons.mpr (Or.inr h1))
    obtain ⟨xs2, last, hform⟩ : ∃ xs2 last,
        x0.dropWhile isPySpace :: t = xs2 ++ [last] :=
      ⟨_, _, (List.dropLast_append_getLast (by simp)).symm⟩
    have hlast : ∃ c ∈ last, isPySpace c = false :=
      (pyStrip_ne_nil_iff last).mp (hall last (by rw [hform]; simp))
    rw [hform, rstrip_intercalate last hlast xs2] at hl
    have hnl2 : ∀ p ∈ xs2 ++ [pyRstrip last], '\n' ∉ p := by
      intro p hp
      rcases List.mem_append.mp hp with h1 | h1
      · refine hallnl p ?_
        rw [hform]
        exact List.mem_append.mpr (Or.inl h1)
      · have h2 : p = pyRstrip last := by simpa using h1
        subst h2
        intro hmem
        refine hallnl last ?_ (pre_subset (pyRstrip_pre last) _ hmem)
        rw [hform]
        simp
    rw [splitOnNL_intercalate (xs2 ++ [pyRstrip last]) (by simp) hnl2] at hl
    rcases List.mem_append.mp hl with h1 | h1
    · refine hall l ?_ hblank
      rw [hform]
      exact List.mem_append.mpr (Or.inl h1)
    · have h2 : l = pyRstrip last := by simpa using h1
      subst h2
      obtain ⟨c, hc, hcw⟩ := hlast
      exact (pyStrip_ne_nil_iff (pyRstrip last)).mpr
        ⟨c, mem_pyRstrip hc hcw, hcw⟩ hblank

theorem filter_page_no_blank_line_witness :
    ([] : Text) ∈ splitOnNL (filter_page
        [' ', '\n', '\n', ' '] (fun _ => false) false) ∧
      pyStrip ([] : Text) = [] ∧
      filter_page [' ', '\n', '\n', ' '] (fun _ => false) false = [] :=
  ⟨by decide, by decide,
    filter_page_no_blank_line [' ', '\n', '\n', ' '] (fun _ => false) false []
      (by decide) (by decide)⟩

end Pdf2Text
